import Mathlib

/-!
# Verification of the Critic difference engine against its specification

This file gives a shallow embedding, in Lean 4, of the parts of the Critic
code base that the specification's claims are about:

* `src/critic/criticctl/commands/run_worker/analyzechunk.py` — the pure
  intra-chunk analyzer (including a faithful model of CPython's
  `difflib.SequenceMatcher` as used there),
* `src/critic/background/differenceengine/changeset.py` — the
  `Changeset.calculate_remaining` orchestrator, modelled as a function from a
  relational database state to a new state plus the list of emitted job keys,
* `src/critic/api/transaction/changeset/create.py` — `CreateChangeset.ensure`.

Python machine-level details are modelled as follows: `str` becomes `String`
with the ASCII whitespace classes that `re`'s `\s` uses, `float` scores
become exact fractions, database tables become lists of rows, and each
`async` SQL query becomes a pure lookup over the state.  Fallible steps
(`.one()` raising, dictionary lookups) return `Option`.  Loops whose
iteration count is bounded by a list length are written with an explicit
fuel argument (structural recursion), with the exact bound passed at the
call site.
-/

namespace Critic

/-! ## Python string primitives

`\s` for ASCII text is one of the six characters below; `str.strip()` with no
argument removes exactly these from both ends. -/

def isPySpace (c : Char) : Bool :=
  c = ' ' ∨ c = '\t' ∨ c = '\n' ∨ c = '\r' ∨ c = '\x0b' ∨ c = '\x0c'

/-- `str.strip()` on the character list. -/
def pyStripChars (l : List Char) : List Char :=
  ((l.dropWhile isPySpace).reverse.dropWhile isPySpace).reverse

/-- `str.strip()`. -/
def pyStrip (s : String) : String :=
  (pyStripChars s.toList).asString

/-- `re_ws.sub("", s)`: remove every whitespace character. -/
def removeWS (s : String) : String :=
  (s.toList.filter (fun c => ¬ isPySpace c)).asString

/-- `re_ws.sub(" ", s)`: each maximal whitespace run becomes one space
(each step consumes at least one character, so the input length is enough
fuel). -/
def collapseWSChars : Nat → List Char → List Char
  | 0, _ => []
  | _, [] => []
  | fuel + 1, c :: cs =>
    if isPySpace c then ' ' :: collapseWSChars fuel (cs.dropWhile isPySpace)
    else c :: collapseWSChars fuel cs

/-- `re_ws.sub(" ", line.strip())`, the whitespace normalization applied to
lines before the line-level `SequenceMatcher` runs. -/
def normalizeWS (s : String) : String :=
  let l := pyStripChars s.toList
  (collapseWSChars l.length l).asString

/-- Longest prefix satisfying `p`, together with the remainder. -/
def takeRun (p : Char → Bool) : List Char → List Char × List Char
  | [] => ([], [])
  | c :: cs =>
    if p c then
      let r := takeRun p cs
      (c :: r.1, r.2)
    else ([], c :: cs)

theorem takeRun_rest_length (p : Char → Bool) :
    ∀ l : List Char, (takeRun p l).2.length ≤ l.length := by
  intro l
  induction l with
  | nil => simp [takeRun]
  | cons c cs ih =>
    by_cases h : p c <;> simp [takeRun, h]
    exact Nat.le_succ_of_le ih

def isBracketChar (c : Char) : Bool :=
  c = '[' ∨ c = ']' ∨ c = '\x7b' ∨ c = '\x7d' ∨ c = '(' ∨ c = ')'

/-- One step of the `re_words` tokenizer
`([0-9]+|[A-Z][a-z]+|[A-Z]+|[a-z]+|[\[\]{}()]|\s+|.)`: given the first
character of the token, return the rest of the token and the remaining
input.  The regex alternatives are tried in order, each greedy. -/
def pyWordsStep (c : Char) (cs : List Char) : List Char × List Char :=
  if c.isDigit then takeRun Char.isDigit cs
  else if c.isUpper then
    if (cs.head?.map Char.isLower).getD false then takeRun Char.isLower cs
    else takeRun Char.isUpper cs
  else if c.isLower then takeRun Char.isLower cs
  else if isBracketChar c then ([], cs)
  else if isPySpace c then takeRun isPySpace cs
  else ([], cs)

theorem pyWordsStep_rest_length (c : Char) (cs : List Char) :
    (pyWordsStep c cs).2.length ≤ cs.length := by
  unfold pyWordsStep
  repeat' split
  all_goals first
    | exact takeRun_rest_length _ cs
    | exact Nat.le_refl _

/-- `re_words.findall(line)` (fuelled; each step consumes at least the
leading character). -/
def pyWords : Nat → List Char → List String
  | 0, _ => []
  | _, [] => []
  | fuel + 1, c :: cs =>
    (c :: (pyWordsStep c cs).1).asString :: pyWords fuel (pyWordsStep c cs).2

/-- `re_words.findall` on a string. -/
def wordsOf (s : String) : List String := pyWords s.toList.length s.toList

/-- One step of the `re_ws_words` tokenizer `( |\t|\s+|\S+)`. -/
def pyWsWordsStep (c : Char) (cs : List Char) : List Char × List Char :=
  if c = ' ' then ([], cs)
  else if c = '\t' then ([], cs)
  else if isPySpace c then takeRun isPySpace cs
  else takeRun (fun d => ¬ isPySpace d) cs

theorem pyWsWordsStep_rest_length (c : Char) (cs : List Char) :
    (pyWsWordsStep c cs).2.length ≤ cs.length := by
  unfold pyWsWordsStep
  repeat' split
  all_goals first
    | exact takeRun_rest_length _ cs
    | exact Nat.le_refl _

/-- `list(filter(None, re_ws_words.findall(line)))` (the filter removes
nothing: this tokenizer never produces an empty token). -/
def pyWsWords : Nat → List Char → List String
  | 0, _ => []
  | _, [] => []
  | fuel + 1, c :: cs =>
    (c :: (pyWsWordsStep c cs).1).asString ::
      pyWsWords fuel (pyWsWordsStep c cs).2

def wsWordsOf (s : String) : List String := pyWsWords s.toList.length s.toList

/-- `re_ignore.match(line)`: the line is whitespace around at most one of the
tokens `{`, `}`, `*`, `else`, `do`, `*/`. -/
def matchesIgnore (line : String) : Bool :=
  pyStrip line ∈ (["", "\x7b", "\x7d", "*", "else", "do", "*/"] : List String)

/-- `re_conflict.match(line)` for a single line (at most one trailing
newline): `^<<<<<<< .*$|^=======$|^>>>>>>> .*$` (`.` does not match a
newline and `$` also matches just before a trailing newline). -/
def matchesConflict (line : String) : Bool :=
  let l := line.toList
  let core := if l.getLast? = some '\n' then l.dropLast else l
  ¬ core.any (fun c => c = '\n') ∧
    (core = "=======".toList ∨ List.isPrefixOf "<<<<<<< ".toList core ∨
      List.isPrefixOf ">>>>>>> ".toList core)

/-! ## `difflib.SequenceMatcher` (CPython, `isjunk=None`, `autojunk=True`),
specialized to sequences of strings as used by `analyzechunk.py`.

`bjunk` is always empty because `isjunk is None`, so the two junk extension
loops of `find_longest_match` never fire; the autojunk "popular" rule only
removes entries from `b2j`. -/

/-- `b2j.get(x, [])` after `__chain_b`: the indices of `x` in `b` in
increasing order, unless `len(b) >= 200` and `x` occurs more than
`len(b) // 100 + 1` times (a "popular" element, dropped from `b2j`). -/
def b2jOf (b : List String) (x : String) : List Nat :=
  let idxs := (b.enum.filter (fun p => p.2 = x)).map (fun p => p.1)
  if 200 ≤ b.length ∧ b.length / 100 + 1 < idxs.length then [] else idxs

structure FlmBest where
  besti : Nat
  bestj : Nat
  bestsize : Nat
deriving DecidableEq

/-- The inner loop of `find_longest_match` for one row `i`: fold over the
`b2j` entries of `a[i]` restricted to `[blo, bhi)` (ascending, so the `break`
at `j >= bhi` and the `continue` at `j < blo` amount to this restriction),
building the fresh `newj2len` and updating the running best.  `j2len` is the
previous row's dictionary (total function, absent keys mapped to 0). -/
def flmRow (b2j : String → List Nat) (i : Nat) (ai : String) (blo bhi : Nat)
    (j2len : Nat → Nat) (best : FlmBest) : (Nat → Nat) × FlmBest :=
  ((b2j ai).filter (fun j => blo ≤ j ∧ j < bhi)).foldl
    (fun st j =>
      let k := (if j = 0 then 0 else j2len (j - 1)) + 1
      let newj2len : Nat → Nat := fun x => if x = j then k else st.1 x
      let best' : FlmBest :=
        if st.2.bestsize < k then ⟨i + 1 - k, j + 1 - k, k⟩ else st.2
      (newj2len, best'))
    ((fun _ => 0), best)

/-- The row loop of `find_longest_match`. -/
def flmRows (a : List String) (b2j : String → List Nat)
    (alo ahi blo bhi : Nat) : FlmBest :=
  ((List.range' alo (ahi - alo)).foldl
    (fun st i => flmRow b2j i (a.getD i "") blo bhi st.1 st.2)
    (((fun _ => 0) : Nat → Nat), (⟨alo, blo, 0⟩ : FlmBest))).2

/-- `while besti > alo and bestj > blo and a[besti-1] == b[bestj-1]` (the
non-junk lower extension; fuel bounds the iteration count). -/
def extendLower (a b : List String) (alo blo : Nat) :
    Nat → FlmBest → FlmBest
  | 0, best => best
  | fuel + 1, best =>
    if alo < best.besti ∧ blo < best.bestj ∧
        a.getD (best.besti - 1) "" = b.getD (best.bestj - 1) "" then
      extendLower a b alo blo fuel
        ⟨best.besti - 1, best.bestj - 1, best.bestsize + 1⟩
    else best

/-- `while besti+bestsize < ahi and bestj+bestsize < bhi and
a[besti+bestsize] == b[bestj+bestsize]`. -/
def extendUpper (a b : List String) (ahi bhi : Nat) :
    Nat → FlmBest → FlmBest
  | 0, best => best
  | fuel + 1, best =>
    if best.besti + best.bestsize < ahi ∧ best.bestj + best.bestsize < bhi ∧
        a.getD (best.besti + best.bestsize) "" =
          b.getD (best.bestj + best.bestsize) "" then
      extendUpper a b ahi bhi fuel
        ⟨best.besti, best.bestj, best.bestsize + 1⟩
    else best

/-- `find_longest_match(alo, ahi, blo, bhi)`.  The lower extension runs at
most `besti` times (each step decrements `besti`), the upper one at most
`ahi - (besti + bestsize)` times. -/
def findLongestMatch (a b : List String) (b2j : String → List Nat)
    (alo ahi blo bhi : Nat) : FlmBest :=
  let best := flmRows a b2j alo ahi blo bhi
  let best := extendLower a b alo blo best.besti best
  extendUpper a b ahi bhi (ahi - (best.besti + best.bestsize)) best

/-- The recursive block collection of `get_matching_blocks` (the CPython
queue plus final sort is equivalent to this in-order traversal, since all
blocks of the two subproblems are separated in both coordinates).  `fuel`
dominates the interval length `ahi - alo`, which shrinks strictly at each
recursive call. -/
def matchingBlocksAux (a b : List String) (b2j : String → List Nat) :
    Nat → Nat → Nat → Nat → Nat → List (Nat × Nat × Nat)
  | 0, _, _, _, _ => []
  | fuel + 1, alo, ahi, blo, bhi =>
    let m := findLongestMatch a b b2j alo ahi blo bhi
    if m.bestsize = 0 then []
    else
      (if alo < m.besti ∧ blo < m.bestj then
        matchingBlocksAux a b b2j fuel alo m.besti blo m.bestj
      else []) ++
      (m.besti, m.bestj, m.bestsize) ::
      (if m.besti + m.bestsize < ahi ∧ m.bestj + m.bestsize < bhi then
        matchingBlocksAux a b b2j fuel
          (m.besti + m.bestsize) ahi (m.bestj + m.bestsize) bhi
      else [])

/-- The adjacent-block collapsing pass of `get_matching_blocks`, starting
from `i1 = j1 = k1 = 0`. -/
def collapseBlocks : Nat × Nat × Nat → List (Nat × Nat × Nat) →
    List (Nat × Nat × Nat)
  | (i1, j1, k1), [] => if k1 ≠ 0 then [(i1, j1, k1)] else []
  | (i1, j1, k1), (i2, j2, k2) :: rest =>
    if i1 + k1 = i2 ∧ j1 + k1 = j2 then collapseBlocks (i1, j1, k1 + k2) rest
    else
      (if k1 ≠ 0 then [(i1, j1, k1)] else []) ++ collapseBlocks (i2, j2, k2) rest

/-- `SequenceMatcher(None, a, b).get_matching_blocks()`: collapsed blocks
followed by the `(len(a), len(b), 0)` sentinel. -/
def getMatchingBlocks (a b : List String) : List (Nat × Nat × Nat) :=
  let blocks :=
    matchingBlocksAux a b (b2jOf b) (a.length + 1) 0 a.length 0 b.length
  collapseBlocks (0, 0, 0) blocks ++ [(a.length, b.length, 0)]

/-- `get_opcodes()`, computed from the matching blocks. -/
def getOpcodes (blocks : List (Nat × Nat × Nat)) :
    List (String × Nat × Nat × Nat × Nat) :=
  (blocks.foldl
    (fun (st : Nat × Nat × List (String × Nat × Nat × Nat × Nat)) blk =>
      let (ai, bj, size) := blk
      let (i, j, acc) := st
      let acc :=
        if i < ai ∧ j < bj then acc ++ [("replace", i, ai, j, bj)]
        else if i < ai then acc ++ [("delete", i, ai, j, bj)]
        else if j < bj then acc ++ [("insert", i, ai, j, bj)]
        else acc
      let i' := ai + size
      let j' := bj + size
      let acc := if size ≠ 0 then acc ++ [("equal", ai, i', bj, j')] else acc
      (i', j', acc))
    (0, 0, [])).2.2

/-! ## `analyzechunk.py` -/

/-- `offsetInLine(words, offset)`: cumulative character offset of word
boundary `offset` within the line. -/
def offsetInLine (words : List String) (offset : Nat) : Nat :=
  ((words.take offset).map String.length).sum

/-- The shared `replace`/`delete`/`insert` item emission used by both
`analyzeChunk1` and `analyzeWhiteSpaceLine` (the `for tag, i1, i2, j1, j2 in
sm.get_opcodes()` loops). -/
def opcodeItems (dWords iWords : List String)
    (blocks : List (Nat × Nat × Nat)) : List String :=
  (getOpcodes blocks).filterMap (fun op =>
    let (tag, i1, i2, j1, j2) := op
    if tag = "replace" then
      some s!"r{offsetInLine dWords i1}-{offsetInLine dWords i2}={offsetInLine iWords j1}-{offsetInLine iWords j2}"
    else if tag = "delete" then
      some s!"d{offsetInLine dWords i1}-{offsetInLine dWords i2}"
    else if tag = "insert" then
      some s!"i{offsetInLine iWords j1}-{offsetInLine iWords j2}"
    else none)

/-- `analyzeWhiteSpaceLine(deletedLine, insertedLine)`. -/
def analyzeWhiteSpaceLine (deletedLine insertedLine : String) : String :=
  let deletedWords := wsWordsOf deletedLine
  let insertedWords := wsWordsOf insertedLine
  String.intercalate ","
    (opcodeItems deletedWords insertedWords
      (getMatchingBlocks deletedWords insertedWords))

/-- `analyzeWhiteSpaceChanges(deletedLines, insertedLines, at_eof, offsetA,
offsetB, full)`. -/
def analyzeWhiteSpaceChanges (deletedLines insertedLines : List String)
    (atEof : Bool) (offsetA offsetB : Nat) (full : Bool) : String :=
  let pairs := deletedLines.zip insertedLines
  let result := pairs.enum.filterMap (fun p =>
    let index := p.1
    let deletedLine := p.2.1
    let insertedLine := p.2.2
    if deletedLine ≠ insertedLine then
      some s!"{index + offsetA}={index + offsetB}:{analyzeWhiteSpaceLine deletedLine insertedLine}"
    else if index = deletedLines.length - 1 ∧ atEof then
      some s!"{index + offsetA}={index + offsetB}:eol"
    else if full then
      some s!"{index + offsetA}={index + offsetB}"
    else none)
  let result :=
    if result = [] ∧ (offsetA ≠ 0 ∨ offsetB ≠ 0) then
      [s!"{offsetA}={offsetB}"]
    else result
  String.intercalate ";" result

/-- `matching` as computed inside `ratio`: the sum over the matching blocks
of the stripped lengths of the deleted-side words they cover. -/
def matchingChars (blocks : List (Nat × Nat × Nat)) (a : List String) : Nat :=
  blocks.foldl (fun acc blk =>
    acc + (((a.drop blk.1).take blk.2.2).map
      (fun w => (pyStrip w).length)).sum) 0

/-- An exact non-negative fraction.  Python computes the score in `float`;
the score is modelled exactly, as `num / den`, with comparisons by cross
multiplication (equivalent to the rational comparisons whenever the
denominators are positive, which holds at every call site: the ignore
filter guarantees at least one non-whitespace character on each side). -/
structure Frac where
  num : Nat
  den : Nat
deriving DecidableEq

def Frac.lt (q1 q2 : Frac) : Prop := q1.num * q2.den < q2.num * q1.den

def Frac.le (q1 q2 : Frac) : Prop := q1.num * q2.den ≤ q2.num * q1.den

instance (q1 q2 : Frac) : Decidable (Frac.lt q1 q2) :=
  inferInstanceAs (Decidable (_ < _))

instance (q1 q2 : Frac) : Decidable (Frac.le q1 q2) :=
  inferInstanceAs (Decidable (_ ≤ _))

/-- The rational value of a fraction (`x / 0 = 0`, as for `ℚ`). -/
def Frac.toRat (q : Frac) : ℚ := (q.num : ℚ) / (q.den : ℚ)

/-- The constant `0.5` of the `r > 0.5` guard. -/
def fracHalf : Frac := ⟨1, 2⟩

/-- The `ratio` closure of `analyzeChunk1`.  `blocks` stands for
`sm.get_matching_blocks()`. -/
def ratio (blocks : List (Nat × Nat × Nat)) (a : List String)
    (aLength bLength : Nat) : Frac :=
  let matching := matchingChars blocks a
  if 5 < aLength ∧ blocks.length = 2 then ⟨matching, aLength⟩
  else ⟨2 * matching, aLength + bLength⟩

/-- One candidate match of `analyzeChunk1`: the tuple
`(r, deletedIndex, insertedIndex, deletedWords, insertedWords, sm)`, with the
matcher represented by its matching blocks (its only later use is
`get_opcodes`, which is a function of those blocks). -/
structure MatchData where
  r : Frac
  dIdx : Nat
  iIdx : Nat
  dWords : List String
  iWords : List String
  blocks : List (Nat × Nat × Nat)
deriving DecidableEq

/-- The `matches` list collected by `analyzeChunk1`'s nested loops, in
append order (deleted-major, inserted-minor).  The Python loop appends to
`matches` and `equals` in one interleaved pass; the two lists are collected
by `collectMatchesOf` and `collectEqualsOf` separately, preserving each
list's order. -/
def collectMatchesOf (deletedLines insertedLines : List String) :
    List MatchData :=
  deletedLines.enum.flatMap (fun p =>
    let deletedIndex := p.1
    let deleted := p.2
    if matchesConflict deleted then []
    else if ¬ matchesIgnore deleted then
      insertedLines.enum.filterMap (fun q =>
        let insertedIndex := q.1
        let inserted := q.2
        if ¬ matchesIgnore inserted then
          let deletedWords := wordsOf deleted
          let insertedWords := wordsOf inserted
          let blocks := getMatchingBlocks deletedWords insertedWords
          let r := ratio blocks deletedWords
            (removeWS (pyStrip deleted)).length
            (removeWS (pyStrip inserted)).length
          if fracHalf.lt r then
            some ⟨r, deletedIndex, insertedIndex,
              deletedWords, insertedWords, blocks⟩
          else none
        else none)
    else [])

/-- The `equals` list collected by `analyzeChunk1`'s nested loops: pairs of
lines whose stripped forms are equal, where the inserted line (or the
deleted line, in the `else` branch) matches the ignore pattern. -/
def collectEqualsOf (deletedLines insertedLines : List String) :
    List (Nat × Nat) :=
  deletedLines.enum.flatMap (fun p =>
    let deletedIndex := p.1
    let deleted := p.2
    let deletedStripped := pyStrip deleted
    if matchesConflict deleted then []
    else if ¬ matchesIgnore deleted then
      insertedLines.enum.filterMap (fun q =>
        if ¬ matchesIgnore q.2 then none
        else if deletedStripped = pyStrip q.2 then
          some (deletedIndex, q.1)
        else none)
    else
      insertedLines.enum.filterMap (fun q =>
        if deletedStripped = pyStrip q.2 then some (deletedIndex, q.1)
        else none))

/-- Stable insertion for `matches.sort(key=lambda x: x[0], reverse=True)`:
an element is placed before the first element with a strictly smaller score,
so equal scores keep their original relative order. -/
def insertMatchDesc (m : MatchData) : List MatchData → List MatchData
  | [] => [m]
  | x :: xs =>
    if x.r.le m.r then m :: x :: xs else x :: insertMatchDesc m xs

def sortMatchesDesc : List MatchData → List MatchData
  | [] => []
  | m :: ms => insertMatchDesc m (sortMatchesDesc ms)

/-- The greedy acceptance loop: pop the best candidate, keep only candidates
that do not reuse either index and do not cross it, filter `equals` the same
way; returns the accepted matches in acceptance order and the surviving
equals. -/
def greedyAccept : Nat → List MatchData → List (Nat × Nat) →
    List MatchData × List (Nat × Nat)
  | _, [], equals => ([], equals)
  | 0, _ :: _, equals => ([], equals)
  | fuel + 1, m :: rest, equals =>
    let rest' := rest.filter (fun d =>
      d.dIdx ≠ m.dIdx ∧ d.iIdx ≠ m.iIdx ∧
        ((d.dIdx < m.dIdx) ↔ (d.iIdx < m.iIdx)))
    let equals' := equals.filter (fun e =>
      (e.1 < m.dIdx) ↔ (e.2 < m.iIdx))
    let res := greedyAccept fuel rest' equals'
    (m :: res.1, res.2)

/-- `final.sort()`: ascending lexicographic on
`(deletedIndex, insertedIndex)` (the accepted deleted indices are pairwise
distinct, so later tuple components are never compared). -/
def insertAcceptedAsc (m : MatchData) : List MatchData → List MatchData
  | [] => [m]
  | x :: xs =>
    if m.dIdx < x.dIdx ∨ (m.dIdx = x.dIdx ∧ m.iIdx ≤ x.iIdx) then
      m :: x :: xs
    else x :: insertAcceptedAsc m xs

def sortAcceptedAsc : List MatchData → List MatchData
  | [] => []
  | m :: ms => insertAcceptedAsc m (sortAcceptedAsc ms)

/-- `equals.sort()`: ascending lexicographic on pairs. -/
def insertPairAsc (e : Nat × Nat) : List (Nat × Nat) → List (Nat × Nat)
  | [] => [e]
  | x :: xs =>
    if e.1 < x.1 ∨ (e.1 = x.1 ∧ e.2 ≤ x.2) then e :: x :: xs
    else x :: insertPairAsc e xs

def sortEqualsAsc : List (Nat × Nat) → List (Nat × Nat)
  | [] => []
  | e :: es => insertPairAsc e (sortEqualsAsc es)

/-- The record emitted for an interleaved equality pair `(di, ii)`. -/
def equalityRecord (D I : List String) (offA offB di ii : Nat) : String :=
  let lineDiff := analyzeWhiteSpaceLine (D.getD di "") (I.getD ii "")
  if lineDiff ≠ "" then s!"{di + offA}={ii + offB}:ws,{lineDiff}"
  else s!"{di + offA}={ii + offB}"

/-- The `while equals and (equals[0][0] < deletedIndex or equals[0][1] <
insertedIndex)` drain that runs before each accepted match (and before the
sentinel).  Each record is paired with the deleted-line index it prints.
Returns the emitted records, the updated `previousDeletedIndex` /
`previousInsertedIndex` (which start at `-1`, hence `Int`), and the
remaining equals. -/
def drainEquals (D I : List String) (offA offB : Nat) (dIdx iIdx : Nat) :
    Nat → List (Nat × Nat) → Int → Int →
    List (Nat × String) × Int × Int × List (Nat × Nat)
  | _, [], prevD, prevI => ([], prevD, prevI, [])
  | 0, es, prevD, prevI => ([], prevD, prevI, es)
  | fuel + 1, (di, ii) :: rest, prevD, prevI =>
    if di < dIdx ∨ ii < iIdx then
      let step :
          List (Nat × String) × Int × Int :=
        if prevD < (di : Int) ∧ di < dIdx ∧ prevI < (ii : Int) ∧ ii < iIdx then
          ([(di + offA, equalityRecord D I offA offB di ii)],
            (di : Int), (ii : Int))
        else ([], prevD, prevI)
      let rest' := rest.dropWhile (fun e => di = e.1 ∨ ii = e.2)
      let res := drainEquals D I offA offB dIdx iIdx fuel rest'
        step.2.1 step.2.2
      (step.1 ++ res.1, res.2.1, res.2.2.1, res.2.2.2)
    else ([], prevD, prevI, (di, ii) :: rest)

/-- The record emitted for an accepted match. -/
def matchRecord (D I : List String) (offA offB : Nat) (m : MatchData) :
    String :=
  let deletedLine := D.getD m.dIdx ""
  let insertedLine := I.getD m.iIdx ""
  let items :=
    if deletedLine ≠ insertedLine ∧
        pyStrip deletedLine = pyStrip insertedLine then
      ["ws", analyzeWhiteSpaceLine deletedLine insertedLine]
    else opcodeItems m.dWords m.iWords m.blocks
  let base := s!"{m.dIdx + offA}={m.iIdx + offB}"
  if items ≠ [] then base ++ ":" ++ String.intercalate "," items else base

/-- The emission loop over `final` (the empty-list case is the appended
`(len(deletedLines), len(insertedLines), None, None, None)` sentinel, which
drains the remaining equals and stops). -/
def emitLoop (D I : List String) (offA offB : Nat) :
    List MatchData → List (Nat × Nat) → Int → Int → List (Nat × String)
  | [], equals, prevD, prevI =>
    (drainEquals D I offA offB D.length I.length
      equals.length equals prevD prevI).1
  | m :: rest, equals, prevD, prevI =>
    let d := drainEquals D I offA offB m.dIdx m.iIdx
      equals.length equals prevD prevI
    d.1 ++ (m.dIdx + offA, matchRecord D I offA offB m) ::
      emitLoop D I offA offB rest d.2.2.2 (m.dIdx : Int) (m.iIdx : Int)

/-- The trailing-equality walk of the `elif deletedLines[-1] ==
insertedLines[-1]` branch, producing records in Python's append order
(descending deleted index); the caller reverses it. -/
def tailEqualRecords (D I : List String) (offA offB : Nat) :
    Nat → Nat → List (Nat × String)
  | 0, _ => []
  | fuel + 1, index =>
    if index ≤ D.length ∧ index ≤ I.length ∧
        D.getD (D.length - index) "" = I.getD (I.length - index) "" then
      (D.length - index + offA,
        s!"{D.length - index + offA}={I.length - index + offB}") ::
        tailEqualRecords D I offA offB fuel (index + 1)
    else []

/-- The accepted matches of `analyzeChunk1`, in acceptance order. -/
def analyzeChunk1Accepted (deletedLines insertedLines : List String) :
    List MatchData :=
  let sorted := sortMatchesDesc (collectMatchesOf deletedLines insertedLines)
  (greedyAccept sorted.length sorted
    (collectEqualsOf deletedLines insertedLines)).1

/-- The records of `analyzeChunk1`, each paired with the deleted-line index
it prints; `analyzeChunk1` is the `;`-join of the record strings. -/
def analyzeChunk1Records (deletedLines insertedLines : List String)
    (offsetA offsetB : Nat) : List (Nat × String) :=
  if 10000 < deletedLines.length * insertedLines.length then []
  else
    if collectMatchesOf deletedLines insertedLines ≠ [] then
      let sorted :=
        sortMatchesDesc (collectMatchesOf deletedLines insertedLines)
      let g := greedyAccept sorted.length sorted
        (collectEqualsOf deletedLines insertedLines)
      emitLoop deletedLines insertedLines offsetA offsetB
        (sortAcceptedAsc g.1) (sortEqualsAsc g.2) (-1) (-1)
    else if deletedLines.getLast? = insertedLines.getLast? then
      (tailEqualRecords deletedLines insertedLines offsetA offsetB
        (deletedLines.length + 1) 1).reverse
    else []

/-- `analyzeChunk1(deletedLines, insertedLines, offsetA, offsetB)` (callers
always pass non-empty line lists). -/
def analyzeChunk1 (deletedLines insertedLines : List String)
    (offsetA offsetB : Nat) : String :=
  String.intercalate ";"
    ((analyzeChunk1Records deletedLines insertedLines offsetA offsetB).map
      (fun rec => rec.2))

/-- The `edits` accumulation of `analyzeChunk`'s slow path: walk the
line-level matching blocks carrying `(pi, pj)`, analyze each window where
both sides advanced, send each matching window to
`analyzeWhiteSpaceChanges(full=moved)`, and finish with the trailing
window. -/
def chunkEditsGo (D I : List String) (moved : Bool) :
    List (Nat × Nat × Nat) → Nat → Nat → List String
  | [], pi, pj =>
    if pi < D.length ∧ pj < I.length then
      [analyzeChunk1 (D.drop pi) (I.drop pj) pi pj]
    else []
  | (i, j, n) :: rest, pi, pj =>
    if n = 0 then chunkEditsGo D I moved rest pi pj
    else
      (if pi < i ∧ pj < j then
        [analyzeChunk1 ((D.drop pi).take (i - pi)) ((I.drop pj).take (j - pj))
          pi pj]
      else []) ++
      analyzeWhiteSpaceChanges ((D.drop i).take n) ((I.drop j).take n)
        false i j moved ::
      chunkEditsGo D I moved rest (i + n) (j + n)

/-- `analyzeChunk(deletedLines, insertedLines, moved)`.  The final
`if analysis: return analysis else: return ""` is the identity on strings,
so both branches are returned as-is. -/
def analyzeChunk (deletedLines insertedLines : List String)
    (moved : Bool) : Option String :=
  if deletedLines.isEmpty ∨ insertedLines.isEmpty then none
  else some (
    if deletedLines.length * insertedLines.length ≤ 10000 ∧ moved = false then
      analyzeChunk1 deletedLines insertedLines 0 0
    else
      let deletedLinesNoWS := deletedLines.map normalizeWS
      let insertedLinesNoWS := insertedLines.map normalizeWS
      let edits := chunkEditsGo deletedLines insertedLines moved
        (getMatchingBlocks deletedLinesNoWS insertedLinesNoWS) 0 0
      String.intercalate ";" (edits.filter (fun e => ¬ e.isEmpty)))

/-! ## Database state and `Changeset.calculate_remaining`
(`src/critic/background/differenceengine/changeset.py`)

Tables are lists of rows; every SQL query of `calculate_remaining` becomes a
pure lookup.  `Query.one()` (which raises unless exactly one row results)
becomes `lookupOne`, returning `none` otherwise; the whole run returns
`Option` accordingly.  Jobs are modelled by their keys, which is what the
group uses both for de-duplication and for the permanent failure memo; the
job payloads (sha1s, block offsets, encodings) do not influence scheduling
and are omitted. -/

/-- Job keys for the six job kinds.  The key constructors are modelled from
the spec (§4.2: "discriminated keys, stable across restarts"); the job
classes themselves are not among the sources. -/
inductive JobKey where
  | calculateStructureDifference (changesetId : Nat)
  | examineFiles (changesetId : Nat) (files : List Nat)
  | calculateFileDifference (changesetId : Nat) (file : Nat)
  | analyzeChangedLines (changesetId : Nat) (file : Nat)
  | detectFileLanguages (changesetId : Nat) (files : List Nat)
  | syntaxHighlightFile (sha1 : String) (language : String) (conflicts : Bool)
deriving DecidableEq

structure ChangesetRow where
  id : Nat
  repository : Nat
  fromCommit : Option Nat
  toCommit : Nat
  forMerge : Option Nat
  isReplay : Bool
  processed : Bool
  complete : Bool
deriving DecidableEq

structure ContentDiffRow where
  changeset : Nat
  complete : Bool
deriving DecidableEq

structure HighlightRequestRow where
  changeset : Nat
  requested : Bool
  evaluated : Bool
deriving DecidableEq

structure ChangesetFileRow where
  changeset : Nat
  file : Nat
  oldSha1 : Option String
  newSha1 : Option String
deriving DecidableEq

structure FileDiffRow where
  changeset : Nat
  file : Nat
  oldHighlightfile : Option Nat
  newHighlightfile : Option Nat
  comparisonPending : Bool
deriving DecidableEq

structure ChangedLinesRow where
  changeset : Nat
  file : Nat
  index : Nat
  offset : Nat
  deleteCount : Nat
  deleteLength : Nat
  insertCount : Nat
  insertLength : Nat
  analysis : Option String
deriving DecidableEq

structure HighlightFileRow where
  id : Nat
  sha1 : String
  language : Option Nat
  conflicts : Bool
  highlighted : Bool
deriving DecidableEq

structure ErrorRow where
  changeset : Nat
  jobKey : JobKey
  fatal : Bool
deriving DecidableEq

structure DB where
  changesets : List ChangesetRow
  contentDifferences : List ContentDiffRow
  highlightRequests : List HighlightRequestRow
  changesetFiles : List ChangesetFileRow
  fileDifferences : List FileDiffRow
  changedLines : List ChangedLinesRow
  highlightFiles : List HighlightFileRow
  changesetErrors : List ErrorRow
  commits : List (Nat × String)
  files : List (Nat × String)
  highlightLanguages : List (Nat × String)
deriving DecidableEq

/-- `Query.one()`: succeeds exactly when exactly one row matches. -/
def lookupOne {α} (l : List α) (p : α → Bool) : Option α :=
  match l.filter p with
  | [a] => some a
  | _ => none

/-- The `changeseterrors.job_key` rows loaded into `self.failed`. -/
def errorKeys (db : DB) (csId : Nat) : List JobKey :=
  (db.changesetErrors.filter (fun e => e.changeset = csId)).map
    (fun e => e.jobKey)

/-- Modelled from the spec: `JobGroup.add_job` (`jobgroup.py` is not among
the sources) — "reject duplicates by key; reject any key in `failed_keys`"
(§4.4). -/
def addJob (failed : List JobKey) (jobs : List JobKey) (k : JobKey) :
    List JobKey :=
  if k ∈ failed ∨ k ∈ jobs then jobs else jobs ++ [k]

/-- Modelled from the spec: `JobGroup.add_jobs`, job-wise `add_job` (§4.4). -/
def addJobs (failed : List JobKey) (jobs : List JobKey) (ks : List JobKey) :
    List JobKey :=
  ks.foldl (addJob failed) jobs

/-- The big initial changeset query (processed/complete flags, commit sha1s,
`for_merge`, and whether a `changesetcontentdifferences` row exists). -/
structure LoadedChangeset where
  processed : Bool
  complete : Bool
  toCommitId : Nat
  toCommitSha1 : String
  fromCommitId : Option Nat
  fromCommitSha1 : Option String
  forMergeId : Option Nat
  contentDifferenceRequested : Bool
deriving DecidableEq

/-- Load the changeset row (`Query.one()`), with the inner join on the
`to_commit` commit row and the left outer joins; commits are keyed by id. -/
def loadChangeset (db : DB) (csId : Nat) : Option LoadedChangeset :=
  (lookupOne db.changesets (fun r => r.id = csId)).bind fun row =>
  (lookupOne db.commits (fun c => c.1 = row.toCommit)).map fun toC =>
  { processed := row.processed
    complete := row.complete
    toCommitId := row.toCommit
    toCommitSha1 := toC.2
    fromCommitId := row.fromCommit
    fromCommitSha1 := row.fromCommit.bind fun fc =>
      (lookupOne db.commits (fun c => c.1 = fc)).map (fun c => c.2)
    forMergeId := row.forMerge
    contentDifferenceRequested :=
      db.contentDifferences.any (fun c => c.changeset = csId) }

structure ReferenceInfo where
  refId : Nat
  refProcessed : Bool
  mergeBaseSha1 : String
deriving DecidableEq

/-- The reference-changeset query for a primary merge changeset: `Query.one()`
over `to_commit = primary.from_commit AND for_merge = primary.for_merge`,
inner-joined with the commit row of its `from_commit` (the merge base). -/
def loadReference (db : DB) (fromCommitId : Option Nat) (forMergeId : Nat) :
    Option ReferenceInfo :=
  fromCommitId.bind fun fc =>
  (lookupOne db.changesets
    (fun r => r.toCommit = fc ∧ r.forMerge = some forMergeId)).bind fun ref =>
  ref.fromCommit.bind fun refFrom =>
  (lookupOne db.commits (fun c => c.1 = refFrom)).map fun c =>
  ⟨ref.id, ref.processed, c.2⟩

/-- `UPDATE changesets SET complete=TRUE WHERE id={id}`. -/
def setComplete (rows : List ChangesetRow) (id : Nat) : List ChangesetRow :=
  rows.map (fun r => if r.id = id then { r with complete := true } else r)

/-- One `DELETE FROM changesetfiles WHERE changeset={prune} AND file NOT IN
(SELECT file FROM changesetfiles WHERE changeset={other})` statement; the
subquery sees the table state at the start of the statement. -/
def pruneFiles (tbl : List ChangesetFileRow) (pruneId otherId : Nat) :
    List ChangesetFileRow :=
  tbl.filter (fun f => ¬ (f.changeset = pruneId ∧
    ¬ tbl.any (fun g => g.changeset = otherId ∧ g.file = f.file)))

/-- The phase-B transaction: for a primary merge changeset, prune both file
sets (sequentially, as `executemany` does) and mark the reference changeset
complete; in all cases mark the changeset itself complete. -/
def phaseB (db : DB) (csId : Nat) (isPrimaryMerge : Bool) (refId : Nat) :
    DB :=
  if isPrimaryMerge then
    let files1 := pruneFiles db.changesetFiles csId refId
    let files2 := pruneFiles files1 refId csId
    { db with
        changesetFiles := files2
        changesets := setComplete (setComplete db.changesets refId) csId }
  else
    { db with changesets := setComplete db.changesets csId }

/-- Whether a file id appears in the `files` table (the inner `JOIN files`
of the scan queries). -/
def fileKnown (db : DB) (fileId : Nat) : Bool :=
  db.files.any (fun f => f.1 = fileId)

/-- The scan for `changesetfiles` rows not matched by any
`changesetfiledifferences` row. -/
def missingDiffFiles (db : DB) (csId : Nat) : List Nat :=
  (db.changesetFiles.filter (fun f => f.changeset = csId ∧
    fileKnown db f.file ∧
    ¬ db.fileDifferences.any (fun d =>
      d.changeset = csId ∧ d.file = f.file))).map (fun f => f.file)

/-- The scan for `changesetfiledifferences` rows with `comparison_pending`. -/
def pendingDiffFiles (db : DB) (csId : Nat) : List Nat :=
  (db.changesetFiles.filter (fun f => f.changeset = csId ∧
    fileKnown db f.file ∧
    db.fileDifferences.any (fun d => d.changeset = csId ∧ d.file = f.file ∧
      d.comparisonPending))).map (fun f => f.file)

/-- The `SELECT DISTINCT` scan for files with unanalyzed changed-line
blocks. -/
def unanalyzedFiles (db : DB) (csId : Nat) : List Nat :=
  ((db.changedLines.filter (fun l => l.changeset = csId ∧ l.analysis = none ∧
    fileKnown db l.file ∧
    db.changesetFiles.any (fun f =>
      f.changeset = csId ∧ f.file = l.file))).map (fun l => l.file)).dedup

/-- Modelled from the spec: `ExamineFiles.for_files` (`examinefiles.py` is
not among the sources) — "emit ExamineFiles batched per changeset" (§4.5
phase C); one batch job keyed by the batch, none when there is nothing to
examine. -/
def examineFilesJobs (csId : Nat) (fileIds : List Nat) : List JobKey :=
  if fileIds = [] then [] else [.examineFiles csId fileIds]

/-- Modelled from the spec: `CalculateFileDifference.for_files` — one job
per file whose comparison is pending (§4.2.3, §4.5 phase C). -/
def calculateFileDifferenceJobs (csId : Nat) (fileIds : List Nat) :
    List JobKey :=
  fileIds.map (fun f => .calculateFileDifference csId f)

/-- Modelled from the spec: `AnalyzeChangedLines.for_blocks` — one job per
file with unanalyzed blocks (§4.2.4); the per-block offsets are payload, not
key. -/
def analyzeChangedLinesJobs (csId : Nat) (fileIds : List Nat) : List JobKey :=
  fileIds.map (fun f => .analyzeChangedLines csId f)

/-- One row of the two `highlightfiles` gather queries of phase D. -/
structure HighlightRow where
  file : Nat
  sha1 : String
  conflicts : Bool
  highlighted : Bool
  language : Option Nat
  path : String
deriving DecidableEq

/-- The `SELECT DISTINCT` over `highlightfiles` joined through one side of
`changesetfiledifferences` (`side` selects `old_highlightfile` or
`new_highlightfile`). -/
def highlightRowsVia (db : DB) (csId : Nat)
    (side : FileDiffRow → Option Nat) : List HighlightRow :=
  (db.fileDifferences.filterMap (fun d =>
    if d.changeset = csId then
      (side d).bind fun hlId =>
      (lookupOne db.highlightFiles (fun h => h.id = hlId)).bind fun h =>
      (lookupOne db.files (fun f => f.1 = d.file)).map fun f =>
      (⟨d.file, h.sha1, h.conflicts, h.highlighted, h.language, f.2⟩ :
        HighlightRow)
    else none)).dedup

/-- The `SyntaxHighlightFile` jobs for one side's rows: every row with a
language that is not yet highlighted; the
`highlight_language_labels[language_id]` dictionary lookup raises on a
missing id, hence `Option`. -/
def syntaxHighlightJobsOf (labels : List (Nat × String))
    (rows : List HighlightRow) : Option (List JobKey) :=
  (rows.filter (fun r => r.language.isSome ∧ ¬ r.highlighted)).mapM (fun r =>
    match r.language with
    | some langId =>
      (lookupOne labels (fun l => l.1 = langId)).map fun l =>
        JobKey.syntaxHighlightFile r.sha1 l.2 r.conflicts
    | none => none)

/-- Modelled from the spec: `DetectFileLanguages.for_files(changed_files,
skip_file_versions=evaluated_files, process_all=True)` — one batched job
covering every changed file with a version `(file, sha1)` not among the
gathered highlight rows (§4.5 phase D step 3); no job when nothing
remains. -/
def detectFileLanguagesJobs (csId : Nat)
    (changedFiles : List ChangesetFileRow)
    (evaluatedFiles : List (Nat × String)) : List JobKey :=
  let remaining := (changedFiles.filter (fun f =>
    ([f.oldSha1, f.newSha1].filterMap id).any (fun sha =>
      (f.file, sha) ∉ evaluatedFiles))).map (fun f => f.file)
  if remaining = [] then [] else [.detectFileLanguages csId remaining]

/-- The phase-D `changed_files` query: `changesetfiles` joined with
`changesetfiledifferences` and `files` (the length columns are job payload
and omitted). -/
def changedFilesWithDiff (db : DB) (csId : Nat) : List ChangesetFileRow :=
  db.changesetFiles.filter (fun f => f.changeset = csId ∧
    fileKnown db f.file ∧
    db.fileDifferences.any (fun d => d.changeset = csId ∧ d.file = f.file))

/-- The `syntax_highlight_complete_before` probe: is there a highlight file
referenced from this changeset with a language but not yet highlighted? -/
def pendingHighlightExists (db : DB) (csId : Nat) : Bool :=
  db.highlightFiles.any (fun h => h.language.isSome ∧ ¬ h.highlighted ∧
    db.fileDifferences.any (fun d => d.changeset = csId ∧
      (d.oldHighlightfile = some h.id ∨ d.newHighlightfile = some h.id)))

/-- `UPDATE changesetcontentdifferences SET complete=TRUE WHERE
changeset={csId}`. -/
def setContentComplete (rows : List ContentDiffRow) (csId : Nat) :
    List ContentDiffRow :=
  rows.map (fun r =>
    if r.changeset = csId then { r with complete := true } else r)

/-- `UPDATE changesethighlightrequests SET evaluated={e} WHERE
changeset={csId}`. -/
def setHighlightEvaluated (rows : List HighlightRequestRow) (csId : Nat)
    (e : Bool) : List HighlightRequestRow :=
  rows.map (fun r =>
    if r.changeset = csId then { r with evaluated := e } else r)

/-- The result of one `calculate_remaining` run: the new database state, the
keys of the jobs added to the group (in add order), and the updated failed
set. -/
structure CalcResult where
  db : DB
  jobs : List JobKey
  failed : List JobKey
deriving DecidableEq

/-- Phase D (`# Search for any files that need to be syntax highlighted`),
entered only when `all_files_examined` and not
`syntax_highlight_complete_before`.  Returns the updated highlight-request
table and the grown job list. -/
def phaseD (db : DB) (csId : Nat) (failed : List JobKey)
    (jobs : List JobKey) (evaluatedBefore : Bool) :
    Option (List HighlightRequestRow × List JobKey) :=
  let changedFiles := changedFilesWithDiff db csId
  let oldRows := highlightRowsVia db csId (fun d => d.oldHighlightfile)
  let newRows := highlightRowsVia db csId (fun d => d.newHighlightfile)
  let evaluatedFiles := (oldRows ++ newRows).map (fun r => (r.file, r.sha1))
  (syntaxHighlightJobsOf db.highlightLanguages oldRows).bind fun oldJobs =>
  (syntaxHighlightJobsOf db.highlightLanguages newRows).bind fun newJobs =>
  let syntaxJobs := ((oldJobs ++ newJobs).dedup).filter
    (fun k => k ∉ failed)
  let jobs := if syntaxJobs ≠ [] then addJobs failed jobs syntaxJobs else jobs
  let detectJobs :=
    if ¬ evaluatedBefore then
      (detectFileLanguagesJobs csId changedFiles evaluatedFiles).filter
        (fun k => k ∉ failed)
    else []
  let jobs := if ¬ evaluatedBefore then addJobs failed jobs detectJobs
    else jobs
  let evaluated := detectJobs = []
  let requests :=
    if evaluated ∧ ¬ evaluatedBefore then
      setHighlightEvaluated db.highlightRequests csId true
    else db.highlightRequests
  some (requests, jobs)

/-- The `syntax_highlight_complete_before` value: trivially complete when
highlighting was not requested; when already evaluated, complete unless a
referenced highlight file with a language is still unhighlighted. -/
def syntaxHighlightCompleteBefore (db : DB) (csId : Nat)
    (request : HighlightRequestRow) : Bool :=
  if ¬ request.requested then true
  else if request.evaluated then ¬ pendingHighlightExists db csId
  else false

/-- The `content_difference_complete_before` read:
`SELECT complete FROM changesetcontentdifferences ...` via `scalar()`; an
absent row reads as a falsy value. -/
def contentCompleteBefore (db : DB) (csId : Nat) : Bool :=
  ((db.contentDifferences.find? (fun r => r.changeset = csId)).map
    (fun r => r.complete)).getD false

/-- The phase-C bookkeeping: emit the examine/file-difference jobs that
survive the failed filter (or, if none survive and the content difference
was not complete before, mark it complete), then emit the surviving
analyze-changed-lines jobs.  Returns the new
`changesetcontentdifferences` table, the grown job list, and
`all_files_examined`. -/
def contentStep (db : DB) (csId : Nat) (failed jobs : List JobKey) :
    List ContentDiffRow × List JobKey × Bool :=
  let missing := missingDiffFiles db csId
  let contentJobsAll := examineFilesJobs csId missing ++
    calculateFileDifferenceJobs csId (pendingDiffFiles db csId)
  -- Remove any previous failed jobs.  We shouldn't try them again.
  let contentJobs := contentJobsAll.filter (fun k => k ∉ failed)
  let jobs := if contentJobs ≠ [] then addJobs failed jobs contentJobs
    else jobs
  let contentDifferences :=
    if contentJobs = [] ∧ ¬ contentCompleteBefore db csId then
      setContentComplete db.contentDifferences csId
    else db.contentDifferences
  let analyzeJobs := (analyzeChangedLinesJobs csId
    (unanalyzedFiles db csId)).filter (fun k => k ∉ failed)
  let jobs := if analyzeJobs ≠ [] then addJobs failed jobs analyzeJobs
    else jobs
  (contentDifferences, jobs, missing = [])

/-- Everything after the phase-B transaction; `db` is the post-phase-B
state. -/
def calcLate (db : DB) (csId : Nat) (failed jobs : List JobKey)
    (request : HighlightRequestRow) : Option CalcResult :=
  let cs := contentStep db csId failed jobs
  if cs.2.2 ∧ ¬ syntaxHighlightCompleteBefore db csId request then
    (phaseD db csId failed cs.2.1 request.evaluated).map fun pd =>
      ⟨{ db with contentDifferences := cs.1, highlightRequests := pd.1 },
        pd.2, failed⟩
  else
    some ⟨{ db with contentDifferences := cs.1 }, cs.2.1, failed⟩

/-- The structure-difference jobs of phase A: one for an unprocessed
reference changeset (primary merges only), one for the changeset itself
when unprocessed. -/
def phaseAJobs (failed : List JobKey) (csId : Nat)
    (refInfo : Option ReferenceInfo) (processed : Bool) : List JobKey :=
  let jobs : List JobKey :=
    match refInfo with
    | some ref =>
      if ¬ ref.refProcessed then
        addJob failed [] (.calculateStructureDifference ref.refId)
      else []
    | none => []
  if ¬ processed then
    addJob failed jobs (.calculateStructureDifference csId)
  else jobs

/-- `Changeset.calculate_remaining`, as a function of the database state,
the changeset id, and the group's current failed-key set.  `none` models an
exception escaping the coroutine (a `Query.one()` or dictionary lookup
failure). -/
def calculateRemaining (db : DB) (csId : Nat) (failed0 : List JobKey) :
    Option CalcResult :=
  let failed := failed0 ++ errorKeys db csId
  (loadChangeset db csId).bind fun loaded =>
  (if loaded.forMergeId = some loaded.toCommitId then
    (loadReference db loaded.fromCommitId
      (loaded.forMergeId.getD 0)).map fun ref => some ref
  else some none).bind fun refInfo =>
  let refProcessed := (refInfo.map (fun r => r.refProcessed)).getD true
  let jobs := phaseAJobs failed csId refInfo loaded.processed
  (lookupOne db.highlightRequests
    (fun r => r.changeset = csId)).bind fun request =>
  if ¬ refProcessed ∨ ¬ loaded.processed then
    -- Calculate structure difference, and do nothing else.
    some ⟨db, jobs, failed⟩
  else
    calcLate
      (phaseB db csId (loaded.forMergeId = some loaded.toCommitId)
        ((refInfo.map (fun r => r.refId)).getD 0))
      csId failed jobs request

/-- The database state after one `calculate_remaining` run (unchanged when
the run fails). -/
def runCalc (db : DB) (csId : Nat) (failed0 : List JobKey) : DB :=
  ((calculateRemaining db csId failed0).map (fun r => r.db)).getD db

/-- The job keys added to the group by one `calculate_remaining` run. -/
def emittedJobs (db : DB) (csId : Nat) (failed0 : List JobKey) :
    List JobKey :=
  ((calculateRemaining db csId failed0).map (fun r => r.jobs)).getD []

/-! ## `CreateChangeset.ensure`
(`src/critic/api/transaction/changeset/create.py`)

`repository` stands for `to_commit.repository`, which both the lookup and
the insert use. -/

/-- `FindChangesetId.__call__`: `maybe_scalar` over the lookup query (the
first matching row's id, or `none`). -/
def findChangesetId (rows : List ChangesetRow) (repository : Nat)
    (fromCommit : Option Nat) (toCommit : Nat) (conflicts : Bool) :
    Option Nat :=
  match fromCommit with
  | none =>
    (rows.find? (fun r => r.repository = repository ∧
      r.toCommit = toCommit ∧ r.fromCommit = none ∧
      r.forMerge = none)).map (fun r => r.id)
  | some fc =>
    (rows.find? (fun r => r.repository = repository ∧
      r.toCommit = toCommit ∧ r.fromCommit = some fc ∧
      r.forMerge = none ∧ r.isReplay = conflicts)).map (fun r => r.id)

/-- A fresh id for an inserted row (any id not already in the table). -/
def freshChangesetId (rows : List ChangesetRow) : Nat :=
  ((rows.map (fun r => r.id)).foldr max 0) + 1

/-- `CreateChangeset.ensure`: return the existing changeset when the lookup
finds one, otherwise insert exactly one row with
`repository/from_commit/to_commit/is_replay` (`for_merge` is not inserted
and defaults to NULL; `processed`/`complete` default to false). -/
def ensureChangeset (rows : List ChangesetRow) (repository : Nat)
    (fromCommit : Option Nat) (toCommit : Nat) (conflicts : Bool) :
    Nat × List ChangesetRow :=
  match findChangesetId rows repository fromCommit toCommit conflicts with
  | some csId => (csId, rows)
  | none =>
    let row : ChangesetRow :=
      { id := freshChangesetId rows
        repository := repository
        fromCommit := fromCommit
        toCommit := toCommit
        forMerge := none
        isReplay := conflicts
        processed := false
        complete := false }
    (row.id, rows ++ [row])

/-- The row predicate of claim C10, written from the claim's words: same
repository, `to_commit`, `from_commit` (NULL for a root changeset) and
`for_merge IS NULL`, additionally matching `is_replay = conflicts` when
`from_commit` is non-null (the `conflicts` argument is ignored when
`from_commit` is null). -/
def claimMatchesChangeset (r : ChangesetRow) (repository : Nat)
    (fromCommit : Option Nat) (toCommit : Nat) (conflicts : Bool) : Bool :=
  r.repository = repository ∧ r.toCommit = toCommit ∧
    r.fromCommit = fromCommit ∧ r.forMerge = none ∧
    (fromCommit = none ∨ r.isReplay = conflicts)

/-! ## Theorems for the claims -/

/-- C8: `analyzeChunk(D, I, moved)` returns `None` if and only if `D` is
empty or `I` is empty (pure insert or pure delete); for every pair of
non-empty `D` and `I` it returns a string, possibly the empty string. -/
theorem c8_analyzeChunk_none_iff (D I : List String) (moved : Bool) :
    analyzeChunk D I moved = none ↔ (D = [] ∨ I = []) := by
  unfold analyzeChunk
  split
  · next h => simpa [List.isEmpty_iff] using h
  · next h =>
    simp only [List.isEmpty_iff] at h
    simp [h]

/-- C9: for the concrete input `D = ["foo\n"]`, `I = [" foo\n"]`,
`moved = false`, `analyzeChunk` returns exactly the string
`"0=0:ws,i0-1"`. -/
theorem c9_whitespace_only_change :
    analyzeChunk ["foo\n"] [" foo\n"] false = some "0=0:ws,i0-1" := by decide

theorem findChangesetId_some (rows : List ChangesetRow) (repository : Nat)
    (fromCommit : Option Nat) (toCommit : Nat) (conflicts : Bool)
    (csId : Nat)
    (h : findChangesetId rows repository fromCommit toCommit conflicts =
      some csId) :
    ∃ r ∈ rows, claimMatchesChangeset r repository fromCommit toCommit
      conflicts ∧ r.id = csId := by
  unfold findChangesetId at h
  cases fromCommit with
  | none =>
    rw [Option.map_eq_some'] at h
    obtain ⟨r, hr, hid⟩ := h
    refine ⟨r, List.mem_of_find?_eq_some hr, ?_, hid⟩
    have hp := List.find?_some hr
    simp only [decide_eq_true_eq] at hp
    simp [claimMatchesChangeset, hp.1, hp.2.1, hp.2.2.1, hp.2.2.2]
  | some fc =>
    rw [Option.map_eq_some'] at h
    obtain ⟨r, hr, hid⟩ := h
    refine ⟨r, List.mem_of_find?_eq_some hr, ?_, hid⟩
    have hp := List.find?_some hr
    simp only [decide_eq_true_eq] at hp
    simp [claimMatchesChangeset, hp.1, hp.2.1, hp.2.2.1, hp.2.2.2.1,
      hp.2.2.2.2]

theorem findChangesetId_none (rows : List ChangesetRow) (repository : Nat)
    (fromCommit : Option Nat) (toCommit : Nat) (conflicts : Bool)
    (h : findChangesetId rows repository fromCommit toCommit conflicts =
      none) :
    ∀ r ∈ rows, ¬ claimMatchesChangeset r repository fromCommit toCommit
      conflicts := by
  intro r hr hmatch
  unfold findChangesetId at h
  simp only [claimMatchesChangeset, decide_eq_true_eq] at hmatch
  obtain ⟨h1, h2, h3, h4, h5⟩ := hmatch
  cases fromCommit with
  | none =>
    rw [Option.map_eq_none', List.find?_eq_none] at h
    exact h r hr (by simp [h1, h2, h3, h4])
  | some fc =>
    rw [Option.map_eq_none', List.find?_eq_none] at h
    rcases h5 with h5 | h5
    · exact Option.noConfusion h5
    · exact h r hr (by simp [h1, h2, h3, h4, h5])

/-- C10: `CreateChangeset.ensure` is find-or-create and never creates a
duplicate: if a `changesets` row exists with the same repository,
`to_commit`, `from_commit` (NULL for a root changeset) and
`for_merge IS NULL` — additionally matching `is_replay = conflicts` when
`from_commit` is non-null, while `conflicts` is ignored in the lookup when
`from_commit` is null — then `ensure` returns that existing changeset and
inserts no row; otherwise it inserts exactly one new row. -/
theorem c10_ensure_find_or_create (rows : List ChangesetRow)
    (repository : Nat) (fromCommit : Option Nat) (toCommit : Nat)
    (conflicts : Bool) :
    ((∃ r ∈ rows, claimMatchesChangeset r repository fromCommit toCommit
        conflicts) →
      (ensureChangeset rows repository fromCommit toCommit conflicts).2 =
        rows ∧
      ∃ r ∈ rows,
        claimMatchesChangeset r repository fromCommit toCommit conflicts ∧
        (ensureChangeset rows repository fromCommit toCommit conflicts).1 =
          r.id) ∧
    ((¬ ∃ r ∈ rows, claimMatchesChangeset r repository fromCommit toCommit
        conflicts) →
      (ensureChangeset rows repository fromCommit toCommit conflicts).2 =
        rows ++ [{ id := freshChangesetId rows, repository := repository,
                   fromCommit := fromCommit, toCommit := toCommit,
                   forMerge := none, isReplay := conflicts,
                   processed := false, complete := false }]) := by
  cases hf : findChangesetId rows repository fromCommit toCommit conflicts
  with
  | none =>
    constructor
    · intro hex
      obtain ⟨r, hr, hm⟩ := hex
      exact absurd hm (findChangesetId_none _ _ _ _ _ hf r hr)
    · intro _
      simp [ensureChangeset, hf]
  | some csId =>
    constructor
    · intro _
      obtain ⟨r, hr, hm, hid⟩ := findChangesetId_some _ _ _ _ _ _ hf
      exact ⟨by simp [ensureChangeset, hf], r, hr, hm,
        by simp [ensureChangeset, hf, hid]⟩
    · intro hne
      obtain ⟨r, hr, hm, _⟩ := findChangesetId_some _ _ _ _ _ _ hf
      exact absurd ⟨r, hr, hm⟩ hne

/-- Witness for C10 at a concrete table: the lookup finds the row and the
table is unchanged. -/
theorem c10_ensure_find_or_create_witness :
    (ensureChangeset [⟨3, 1, some 5, 6, none, true, false, false⟩] 1
      (some 5) 6 true).2 = [⟨3, 1, some 5, 6, none, true, false, false⟩] :=
  ((c10_ensure_find_or_create
    [⟨3, 1, some 5, 6, none, true, false, false⟩] 1 (some 5) 6 true).1
    ⟨⟨3, 1, some 5, 6, none, true, false, false⟩, by decide, by decide⟩).1

theorem mem_addJob {failed jobs : List JobKey} {k j : JobKey}
    (hjobs : ∀ x ∈ jobs, x ∉ failed) (hj : j ∈ addJob failed jobs k) :
    j ∉ failed := by
  unfold addJob at hj
  split at hj
  · exact hjobs j hj
  · next h =>
    rcases List.mem_append.1 hj with h1 | h1
    · exact hjobs j h1
    · rcases List.mem_singleton.1 h1 with rfl
      push_neg at h
      exact h.1

theorem addJobs_clean {failed : List JobKey} (ks : List JobKey) :
    ∀ {jobs : List JobKey}, (∀ x ∈ jobs, x ∉ failed) →
      ∀ x ∈ addJobs failed jobs ks, x ∉ failed := by
  induction ks with
  | nil => intro jobs hjobs; exact hjobs
  | cons k ks ih =>
    intro jobs hjobs x hx
    simp only [addJobs, List.foldl_cons] at hx
    exact ih (fun y hy => mem_addJob hjobs hy) x hx

theorem ite_addJobs_clean {failed jobs : List JobKey} (ks : List JobKey)
    (c : Prop) [Decidable c] (hjobs : ∀ x ∈ jobs, x ∉ failed) :
    ∀ x ∈ (if c then addJobs failed jobs ks else jobs), x ∉ failed := by
  split
  · exact addJobs_clean _ hjobs
  · exact hjobs

theorem phaseD_clean {db : DB} {csId : Nat} {failed jobs : List JobKey}
    {evaluatedBefore : Bool}
    {pd : List HighlightRequestRow × List JobKey}
    (hjobs : ∀ x ∈ jobs, x ∉ failed)
    (h : phaseD db csId failed jobs evaluatedBefore = some pd) :
    ∀ x ∈ pd.2, x ∉ failed := by
  simp only [phaseD] at h
  cases h1 : syntaxHighlightJobsOf db.highlightLanguages
      (highlightRowsVia db csId (fun d => d.oldHighlightfile)) with
  | none => rw [h1] at h; simp at h
  | some oldJobs =>
    rw [h1] at h
    cases h2 : syntaxHighlightJobsOf db.highlightLanguages
        (highlightRowsVia db csId (fun d => d.newHighlightfile)) with
    | none => rw [h2] at h; simp at h
    | some newJobs =>
      rw [h2] at h
      simp only [Option.some_bind, Option.some.injEq] at h
      subst h
      intro x hx
      simp only at hx
      exact ite_addJobs_clean _ _ (ite_addJobs_clean _ _ hjobs) x hx

theorem contentStep_clean {db : DB} {csId : Nat} {failed jobs : List JobKey}
    (hjobs : ∀ x ∈ jobs, x ∉ failed) :
    ∀ x ∈ (contentStep db csId failed jobs).2.1, x ∉ failed := by
  simp only [contentStep]
  exact ite_addJobs_clean _ _ (ite_addJobs_clean _ _ hjobs)

theorem calcLate_clean {db : DB} {csId : Nat} {failed jobs : List JobKey}
    {request : HighlightRequestRow} {res : CalcResult}
    (hjobs : ∀ x ∈ jobs, x ∉ failed)
    (h : calcLate db csId failed jobs request = some res) :
    ∀ x ∈ res.jobs, x ∉ failed := by
  simp only [calcLate] at h
  split at h
  · cases h4 : phaseD db csId failed
        (contentStep db csId failed jobs).2.1 request.evaluated with
    | none => rw [h4] at h; simp at h
    | some pd =>
      rw [h4] at h
      simp only [Option.map_some', Option.some.injEq] at h
      subst h
      exact phaseD_clean (contentStep_clean hjobs) h4
  · simp only [Option.some.injEq] at h
    subst h
    exact contentStep_clean hjobs

theorem phaseAJobs_clean {failed : List JobKey} {csId : Nat}
    {refInfo : Option ReferenceInfo} {processed : Bool} :
    ∀ x ∈ phaseAJobs failed csId refInfo processed, x ∉ failed := by
  intro x hx
  simp only [phaseAJobs] at hx
  have hbase : ∀ y ∈ (match refInfo with
      | some ref =>
        if ¬ ref.refProcessed then
          addJob failed [] (.calculateStructureDifference ref.refId)
        else []
      | none => ([] : List JobKey)), y ∉ failed := by
    intro y hy
    cases refInfo with
    | none => simp at hy
    | some ref =>
      simp only at hy
      split at hy
      · exact mem_addJob (by simp) hy
      · simp at hy
  split at hx
  · exact mem_addJob hbase hx
  · exact hbase x hx

theorem mem_jobs_of_opt {o : Option CalcResult} {x : JobKey}
    (hx : x ∈ ((o.map (fun r => r.jobs)).getD [])) :
    ∃ res, o = some res ∧ x ∈ res.jobs := by
  cases o with
  | none => simp at hx
  | some res => exact ⟨res, rfl, by simpa using hx⟩

theorem emittedJobs_clean (db : DB) (csId : Nat) (failed0 : List JobKey) :
    ∀ x ∈ emittedJobs db csId failed0,
      x ∉ failed0 ++ errorKeys db csId := by
  intro x hx
  obtain ⟨res, hres, hxres⟩ :=
    mem_jobs_of_opt (by simpa [emittedJobs] using hx)
  simp only [calculateRemaining] at hres
  cases h1 : loadChangeset db csId with
  | none => rw [h1] at hres; simp at hres
  | some loaded =>
    rw [h1] at hres
    simp only [Option.some_bind] at hres
    split at hres
    · cases h2 : loadReference db loaded.fromCommitId
          (loaded.forMergeId.getD 0) with
      | none => rw [h2] at hres; simp at hres
      | some ref =>
        rw [h2] at hres
        simp only [Option.map_some', Option.some_bind] at hres
        cases h3 : lookupOne db.highlightRequests
            (fun r => r.changeset = csId) with
        | none => rw [h3] at hres; simp at hres
        | some request =>
          rw [h3] at hres
          simp only [Option.some_bind] at hres
          split at hres
          · rw [Option.some.injEq] at hres
            subst hres
            exact phaseAJobs_clean x (by simpa using hxres)
          · exact calcLate_clean phaseAJobs_clean hres x hxres
    · simp only [Option.some_bind] at hres
      cases h3 : lookupOne db.highlightRequests
          (fun r => r.changeset = csId) with
      | none => rw [h3] at hres; simp at hres
      | some request =>
        rw [h3] at hres
        simp only [Option.some_bind] at hres
        split at hres
        · rw [Option.some.injEq] at hres
          subst hres
          exact phaseAJobs_clean x (by simpa using hxres)
        · exact calcLate_clean phaseAJobs_clean hres x hxres

/-- C3: once a `ChangesetError` row `(changeset, job_key)` exists, no
invocation of `calculate_remaining` over that state adds a job with that key
to the group — for every job kind.  The structure-difference jobs are
guarded by the (spec-modelled) `add_job` rejection; the content, analyze,
detect-language and syntax-highlight jobs are additionally filtered
explicitly in the source. -/
theorem c3_no_failed_reemission (db : DB) (csId : Nat)
    (failed0 : List JobKey) (k : JobKey)
    (hk : k ∈ emittedJobs db csId failed0) :
    k ∉ errorKeys db csId := fun hmem =>
  emittedJobs_clean db csId failed0 k hk (List.mem_append.2 (Or.inr hmem))



theorem lookupOne_eq_filter {α} {l : List α} {p : α → Bool} {a : α}
    (h : lookupOne l p = some a) : l.filter p = [a] := by
  unfold lookupOne at h
  split at h
  · next heq =>
    rw [Option.some.injEq] at h
    rw [← h]
    exact heq
  · exact Option.noConfusion h

theorem lookupOne_mem {α} {l : List α} {p : α → Bool} {a : α}
    (h : lookupOne l p = some a) : a ∈ l ∧ p a := by
  have ha : a ∈ l.filter p := by
    rw [lookupOne_eq_filter h]
    exact List.mem_singleton.2 rfl
  exact ⟨List.mem_of_mem_filter ha, List.of_mem_filter ha⟩

theorem lookupOne_unique {α} {l : List α} {p : α → Bool} {a : α}
    (h : lookupOne l p = some a) : ∀ b ∈ l, p b → b = a := by
  intro b hb hpb
  have hbf : b ∈ l.filter p := List.mem_filter.2 ⟨hb, hpb⟩
  rw [lookupOne_eq_filter h] at hbf
  exact List.mem_singleton.1 hbf

/-- Inversion of `loadChangeset`: the unique matching row and the field
correspondence. -/
theorem loadChangeset_inv {db : DB} {csId : Nat} {loaded : LoadedChangeset}
    (h : loadChangeset db csId = some loaded) :
    ∃ row, lookupOne db.changesets (fun r => r.id = csId) = some row ∧
      loaded.processed = row.processed ∧ loaded.complete = row.complete ∧
      loaded.toCommitId = row.toCommit ∧
      loaded.fromCommitId = row.fromCommit ∧
      loaded.forMergeId = row.forMerge := by
  simp only [loadChangeset] at h
  cases h1 : lookupOne db.changesets (fun r => r.id = csId) with
  | none => rw [h1] at h; simp at h
  | some row =>
    rw [h1] at h
    simp only [Option.some_bind] at h
    cases h2 : lookupOne db.commits (fun c => c.1 = row.toCommit) with
    | none => rw [h2] at h; simp at h
    | some toC =>
      rw [h2] at h
      simp only [Option.map_some', Option.some.injEq] at h
      subst h
      exact ⟨row, rfl, rfl, rfl, rfl, rfl, rfl⟩

/-- Inversion of `loadReference`: the reference row and field
correspondence. -/
theorem loadReference_inv {db : DB} {fromCommitId : Option Nat}
    {forMergeId : Nat} {ref : ReferenceInfo}
    (h : loadReference db fromCommitId forMergeId = some ref) :
    ∃ row ∈ db.changesets, ref.refId = row.id ∧
      ref.refProcessed = row.processed := by
  simp only [loadReference] at h
  cases fromCommitId with
  | none => simp at h
  | some fc =>
    simp only [Option.some_bind] at h
    cases h1 : lookupOne db.changesets
        (fun r => r.toCommit = fc ∧ r.forMerge = some forMergeId) with
    | none => rw [h1] at h; simp at h
    | some row =>
      rw [h1] at h
      simp only [Option.some_bind] at h
      cases h2 : row.fromCommit with
      | none => rw [h2] at h; simp at h
      | some refFrom =>
        rw [h2] at h
        simp only [Option.some_bind] at h
        cases h3 : lookupOne db.commits (fun c => c.1 = refFrom) with
        | none => rw [h3] at h; simp at h
        | some c =>
          rw [h3] at h
          simp only [Option.map_some', Option.some.injEq] at h
          subst h
          exact ⟨row, (lookupOne_mem h1).1, rfl, rfl⟩

/-- The tables `calcLate` leaves untouched, and its
`changesetcontentdifferences` result. -/
theorem calcLate_inv {db : DB} {csId : Nat} {failed jobs : List JobKey}
    {request : HighlightRequestRow} {res : CalcResult}
    (h : calcLate db csId failed jobs request = some res) :
    res.db.changesets = db.changesets ∧
    res.db.changesetFiles = db.changesetFiles ∧
    res.db.fileDifferences = db.fileDifferences ∧
    res.db.changedLines = db.changedLines ∧
    res.db.changesetErrors = db.changesetErrors ∧
    res.db.commits = db.commits ∧
    res.db.files = db.files ∧
    res.db.contentDifferences = (contentStep db csId failed jobs).1 := by
  simp only [calcLate] at h
  split at h
  · cases h4 : phaseD db csId failed
        (contentStep db csId failed jobs).2.1 request.evaluated with
    | none => rw [h4] at h; simp at h
    | some pd =>
      rw [h4] at h
      simp only [Option.map_some', Option.some.injEq] at h
      subst h
      exact ⟨rfl, rfl, rfl, rfl, rfl, rfl, rfl, rfl⟩
  · simp only [Option.some.injEq] at h
    subst h
    exact ⟨rfl, rfl, rfl, rfl, rfl, rfl, rfl, rfl⟩

/-- Master inversion for a successful `calculate_remaining` run: either the
structure phase is still pending and the state is unchanged, or phase B ran
(with both structure differences processed) and the rest is `calcLate` on
the post-phase-B state. -/
theorem calculateRemaining_inv {db : DB} {csId : Nat} {failed0 : List JobKey}
    {res : CalcResult}
    (h : calculateRemaining db csId failed0 = some res) :
    ∃ loaded, loadChangeset db csId = some loaded ∧
    ∃ refInfo : Option ReferenceInfo,
      (match refInfo with
       | some ref => loaded.forMergeId = some loaded.toCommitId ∧
           loadReference db loaded.fromCommitId
             (loaded.forMergeId.getD 0) = some ref
       | none => loaded.forMergeId ≠ some loaded.toCommitId) ∧
      ((¬ ((refInfo.map (fun r => r.refProcessed)).getD true) ∨
          ¬ loaded.processed) ∧ res.db = db ∨
        ((refInfo.map (fun r => r.refProcessed)).getD true ∧
          loaded.processed ∧
          ∃ request, lookupOne db.highlightRequests
              (fun r => r.changeset = csId) = some request ∧
            calcLate
              (phaseB db csId (loaded.forMergeId = some loaded.toCommitId)
                ((refInfo.map (fun r => r.refId)).getD 0))
              csId (failed0 ++ errorKeys db csId)
              (phaseAJobs (failed0 ++ errorKeys db csId) csId refInfo
                loaded.processed)
              request = some res)) := by
  simp only [calculateRemaining] at h
  cases h1 : loadChangeset db csId with
  | none => rw [h1] at h; simp at h
  | some loaded =>
    rw [h1] at h
    simp only [Option.some_bind] at h
    refine ⟨loaded, rfl, ?_⟩
    split at h
    · next hpm =>
      cases h2 : loadReference db loaded.fromCommitId
          (loaded.forMergeId.getD 0) with
      | none => rw [h2] at h; simp at h
      | some ref =>
        rw [h2] at h
        simp only [Option.map_some', Option.some_bind] at h
        refine ⟨some ref, ⟨hpm, rfl⟩, ?_⟩
        cases h3 : lookupOne db.highlightRequests
            (fun r => r.changeset = csId) with
        | none => rw [h3] at h; simp at h
        | some request =>
          rw [h3] at h
          simp only [Option.some_bind] at h
          split at h
          · next hearly =>
            rw [Option.some.injEq] at h
            subst h
            exact Or.inl ⟨by simpa using hearly, rfl⟩
          · next hearly =>
            push_neg at hearly
            simp only [Option.map_some', Option.getD_some] at hearly ⊢
            rcases hearly with ⟨hrp, hp⟩
            refine Or.inr ⟨by simpa using hrp, by simpa using hp,
              request, rfl, ?_⟩
            simpa [hpm] using h
    · next hpm =>
      simp only [Option.some_bind] at h
      refine ⟨none, by simpa using hpm, ?_⟩
      cases h3 : lookupOne db.highlightRequests
          (fun r => r.changeset = csId) with
      | none => rw [h3] at h; simp at h
      | some request =>
        rw [h3] at h
        simp only [Option.some_bind] at h
        split at h
        · next hearly =>
          rw [Option.some.injEq] at h
          subst h
          exact Or.inl ⟨by simpa using hearly, rfl⟩
        · next hearly =>
          push_neg at hearly
          simp only [Option.map_none', Option.getD_none] at hearly ⊢
          rcases hearly with ⟨hrp, hp⟩
          refine Or.inr ⟨trivial, by simpa using hp, request, rfl, ?_⟩
          simpa [hpm] using h



theorem pairwise_id_unique {rows : List ChangesetRow}
    (hids : rows.Pairwise (fun a b => a.id ≠ b.id)) :
    ∀ a ∈ rows, ∀ b ∈ rows, a.id = b.id → a = b := by
  induction rows with
  | nil => simp
  | cons r rs ih =>
    rcases List.pairwise_cons.1 hids with ⟨hr, hrs⟩
    intro a ha b hb heq
    rcases List.mem_cons.1 ha with ha1 | ha1 <;>
      rcases List.mem_cons.1 hb with hb1 | hb1
    · rw [ha1, hb1]
    · rw [ha1]
      exact absurd (ha1 ▸ heq) (hr b hb1)
    · rw [hb1]
      exact absurd (hb1 ▸ heq).symm (hr a ha1)
    · exact ih hrs a ha1 b hb1 heq

theorem phaseB_changesets (db : DB) (csId : Nat) (isPM : Bool)
    (refId : Nat) :
    (phaseB db csId isPM refId).changesets =
      if isPM then setComplete (setComplete db.changesets refId) csId
      else setComplete db.changesets csId := by
  unfold phaseB
  split
  · next h => simp [h]
  · next h => simp [h]

theorem setComplete_inv {rows : List ChangesetRow} {id : Nat}
    (hinv : ∀ r ∈ rows, r.complete → r.processed)
    (hid : ∀ r ∈ rows, r.id = id → r.processed) :
    ∀ r ∈ setComplete rows id, r.complete → r.processed := by
  intro r hr
  rcases List.mem_map.1 hr with ⟨r0, hr0, rfl⟩
  split
  · next heq => exact fun _ => hid r0 hr0 heq
  · exact hinv r0 hr0

theorem setComplete_id_processed {rows : List ChangesetRow} {id id2 : Nat}
    (hid : ∀ r ∈ rows, r.id = id2 → r.processed) :
    ∀ r ∈ setComplete rows id, r.id = id2 → r.processed := by
  intro r hr
  rcases List.mem_map.1 hr with ⟨r0, hr0, rfl⟩
  split
  · exact fun h => hid r0 hr0 h
  · exact hid r0 hr0

theorem setComplete_forall₂ (rows : List ChangesetRow) (id : Nat) :
    List.Forall₂ (fun o n => o.id = n.id ∧ o.processed = n.processed ∧
      (o.complete → n.complete)) rows (setComplete rows id) := by
  unfold setComplete
  rw [List.forall₂_map_right_iff]
  refine List.forall₂_same.2 (fun r hr => ?_)
  split
  · exact ⟨rfl, rfl, fun _ => rfl⟩
  · exact ⟨rfl, rfl, fun h => h⟩

theorem forall₂_rowEvol_trans {l1 l2 l3 : List ChangesetRow}
    (h12 : List.Forall₂ (fun o n => o.id = n.id ∧ o.processed = n.processed ∧
      (o.complete → n.complete)) l1 l2)
    (h23 : List.Forall₂ (fun o n => o.id = n.id ∧ o.processed = n.processed ∧
      (o.complete → n.complete)) l2 l3) :
    List.Forall₂ (fun o n => o.id = n.id ∧ o.processed = n.processed ∧
      (o.complete → n.complete)) l1 l3 := by
  induction h12 generalizing l3 with
  | nil => cases h23; exact .nil
  | cons h hs ih =>
    cases h23 with
    | cons h' hs' =>
      exact .cons ⟨h.1.trans h'.1, h.2.1.trans h'.2.1,
        fun hc => h'.2.2 (h.2.2 hc)⟩ (ih hs')

/-- C4: `complete` implies `processed`: under distinct changeset ids,
`calculate_remaining` preserves the invariant that every complete changeset
row is processed (it only sets `complete` when the corresponding structure
difference was read as processed), and it never clears `complete` or
touches `processed` (the `Forall₂` part: ids and `processed` are unchanged
row-wise and `complete` is monotone). -/
theorem c4_complete_implies_processed (db : DB) (csId : Nat)
    (failed0 : List JobKey)
    (hids : db.changesets.Pairwise (fun a b => a.id ≠ b.id))
    (hinv : ∀ r ∈ db.changesets, r.complete → r.processed) :
    (∀ r ∈ (runCalc db csId failed0).changesets, r.complete → r.processed) ∧
    List.Forall₂ (fun o n => o.id = n.id ∧ o.processed = n.processed ∧
      (o.complete → n.complete))
      db.changesets (runCalc db csId failed0).changesets := by
  have hrefl : List.Forall₂ (fun o n : ChangesetRow => o.id = n.id ∧
      o.processed = n.processed ∧ (o.complete → n.complete))
      db.changesets db.changesets :=
    List.forall₂_same.2 (fun r _ => ⟨rfl, rfl, fun h => h⟩)
  unfold runCalc
  cases hres : calculateRemaining db csId failed0 with
  | none =>
    simp only [Option.map_none', Option.getD_none]
    exact ⟨hinv, hrefl⟩
  | some res =>
    simp only [Option.map_some', Option.getD_some]
    obtain ⟨loaded, hload, refInfo, href, hcases⟩ :=
      calculateRemaining_inv hres
    rcases hcases with ⟨_, hdb⟩ | ⟨hrp, hp, request, hreq, hlate⟩
    · rw [hdb]; exact ⟨hinv, hrefl⟩
    · have hch : res.db.changesets = (phaseB db csId
          (loaded.forMergeId = some loaded.toCommitId)
          ((refInfo.map (fun r => r.refId)).getD 0)).changesets :=
        (calcLate_inv hlate).1
      rw [hch, phaseB_changesets]
      obtain ⟨row, hrow, hproc, _, _, _, _⟩ := loadChangeset_inv hload
      have hrowmem := lookupOne_mem hrow
      have hrowuniq := lookupOne_unique hrow
      have hcsproc : ∀ r ∈ db.changesets, r.id = csId → r.processed := by
        intro r hr hid2
        have heq2 : r = row := hrowuniq r hr (by simpa using hid2)
        rw [heq2, ← hproc]
        exact hp
      cases refInfo with
      | none =>
        have hpm : ¬ (loaded.forMergeId = some loaded.toCommitId) := by
          simpa using href
        rw [if_neg (by simpa using hpm)]
        exact ⟨setComplete_inv hinv hcsproc, setComplete_forall₂ _ _⟩
      | some ref =>
        have hpm : loaded.forMergeId = some loaded.toCommitId := href.1
        rw [if_pos (by simpa using hpm)]
        obtain ⟨refRow, hrefmem, hrefid, hrefproc⟩ :=
          loadReference_inv href.2
        have hrefproc2 : ∀ r ∈ db.changesets,
            r.id = (Option.map (fun r => r.refId) (some ref)).getD 0 →
            r.processed := by
          intro r hr hid2
          simp only [Option.map_some', Option.getD_some] at hid2
          have heq2 : r = refRow := pairwise_id_unique hids r hr refRow
            hrefmem (by rw [hid2, hrefid])
          rw [heq2, ← hrefproc]
          simpa using hrp
        refine ⟨setComplete_inv
          (setComplete_inv hinv hrefproc2)
          (setComplete_id_processed hcsproc), ?_⟩
        exact forall₂_rowEvol_trans (setComplete_forall₂ _ _)
          (setComplete_forall₂ _ _)



/-- Membership in one `changesetfiles` set, as a predicate on file ids. -/
def fileSetOf (tbl : List ChangesetFileRow) (csId : Nat) (fl : Nat) : Prop :=
  ∃ f ∈ tbl, f.changeset = csId ∧ f.file = fl

theorem mem_pruneFiles {tbl : List ChangesetFileRow} {p o : Nat}
    {f : ChangesetFileRow} :
    f ∈ pruneFiles tbl p o ↔ f ∈ tbl ∧ (f.changeset = p →
      ∃ g ∈ tbl, g.changeset = o ∧ g.file = f.file) := by
  simp only [pruneFiles, List.mem_filter, decide_eq_true_eq, not_and,
    not_not, List.any_eq_true]

theorem phaseB_changesetFiles (db : DB) (csId : Nat) (isPM : Bool)
    (refId : Nat) :
    (phaseB db csId isPM refId).changesetFiles =
      if isPM then
        pruneFiles (pruneFiles db.changesetFiles csId refId) refId csId
      else db.changesetFiles := by
  unfold phaseB
  split
  · next h => simp [h]
  · next h => simp [h]

theorem fileSet_prune_self {tbl : List ChangesetFileRow} {p o fl : Nat} :
    fileSetOf (pruneFiles tbl p o) p fl ↔
      fileSetOf tbl p fl ∧ fileSetOf tbl o fl := by
  unfold fileSetOf
  constructor
  · rintro ⟨f, hf, hcs, hfl⟩
    obtain ⟨hmem, himp⟩ := mem_pruneFiles.1 hf
    obtain ⟨g, hg, hgo, hgf⟩ := himp hcs
    exact ⟨⟨f, hmem, hcs, hfl⟩, ⟨g, hg, hgo, by rw [hgf, hfl]⟩⟩
  · rintro ⟨⟨f, hf, hcs, hfl⟩, ⟨g, hg, hgo, hgf⟩⟩
    refine ⟨f, mem_pruneFiles.2 ⟨hf, fun _ => ⟨g, hg, hgo, ?_⟩⟩, hcs, hfl⟩
    rw [hgf, hfl]

theorem fileSet_prune_other {tbl : List ChangesetFileRow}
    {p o csId fl : Nat} (hne : csId ≠ p) :
    fileSetOf (pruneFiles tbl p o) csId fl ↔ fileSetOf tbl csId fl := by
  unfold fileSetOf
  constructor
  · rintro ⟨f, hf, hcs, hfl⟩
    exact ⟨f, (mem_pruneFiles.1 hf).1, hcs, hfl⟩
  · rintro ⟨f, hf, hcs, hfl⟩
    refine ⟨f, mem_pruneFiles.2 ⟨hf, fun hp => absurd (hcs ▸ hp) hne⟩,
      hcs, hfl⟩

theorem mem_setComplete {rows : List ChangesetRow} {id : Nat}
    {r : ChangesetRow} :
    r ∈ setComplete rows id ↔ ∃ r0 ∈ rows,
      r = if r0.id = id then { r0 with complete := true } else r0 := by
  simp only [setComplete, List.mem_map]
  constructor
  · rintro ⟨r0, hr0, hmap⟩
    exact ⟨r0, hr0, hmap.symm⟩
  · rintro ⟨r0, hr0, hmap⟩
    exact ⟨r0, hr0, hmap.symm⟩

theorem setComplete2_complete {rows : List ChangesetRow} {csId refId : Nat} :
    ∀ r ∈ setComplete (setComplete rows refId) csId,
      (r.id = csId ∨ r.id = refId) → r.complete := by
  intro r hr hid
  obtain ⟨r1, hr1, hmap⟩ := mem_setComplete.1 hr
  obtain ⟨r0, hr0, hmap1⟩ := mem_setComplete.1 hr1
  by_cases h1 : r1.id = csId
  · rw [hmap, if_pos h1]
  · rw [hmap, if_neg h1] at hid ⊢
    rcases hid with hid | hid
    · exact absurd hid h1
    · by_cases h0 : r0.id = refId
      · rw [hmap1, if_pos h0]
      · rw [hmap1, if_neg h0] at hid
        exact absurd hid h0

/-- C2: for a primary merge changeset (`for_merge == to_commit`) whose own
and reference structure differences are both processed, after a successful
`calculate_remaining` run the file set of the primary changeset and the
file set of the reference changeset both equal the intersection of the two
pre-filter file sets, and both changesets are marked `complete` in the
phase-B transaction. -/
theorem c2_merge_filter (db : DB) (csId : Nat) (failed0 : List JobKey)
    (loaded : LoadedChangeset) (ref : ReferenceInfo)
    (hload : loadChangeset db csId = some loaded)
    (hpm : loaded.forMergeId = some loaded.toCommitId)
    (hp : loaded.processed)
    (href : loadReference db loaded.fromCommitId
      (loaded.forMergeId.getD 0) = some ref)
    (hrp : ref.refProcessed)
    (hne : ref.refId ≠ csId)
    (hsome : (calculateRemaining db csId failed0).isSome) :
    (∀ fl, fileSetOf (runCalc db csId failed0).changesetFiles csId fl ↔
      fileSetOf db.changesetFiles csId fl ∧
      fileSetOf db.changesetFiles ref.refId fl) ∧
    (∀ fl, fileSetOf (runCalc db csId failed0).changesetFiles ref.refId fl ↔
      fileSetOf db.changesetFiles csId fl ∧
      fileSetOf db.changesetFiles ref.refId fl) ∧
    (∀ r ∈ (runCalc db csId failed0).changesets,
      (r.id = csId ∨ r.id = ref.refId) → r.complete) := by
  obtain ⟨res, hres⟩ := Option.isSome_iff_exists.1 hsome
  have hrun : runCalc db csId failed0 = res.db := by
    simp [runCalc, hres]
  obtain ⟨loaded', hload', refInfo, href', hcases⟩ :=
    calculateRemaining_inv hres
  rw [hload] at hload'
  have hl : loaded = loaded' := Option.some_inj.1 hload'
  subst hl
  cases refInfo with
  | none => exact absurd hpm (by simpa using href')
  | some ref' =>
    have hr2 := href'.2
    rw [href] at hr2
    have hrr : ref = ref' := Option.some_inj.1 hr2
    subst hrr
    rcases hcases with ⟨hbad, _⟩ | ⟨_, _, request, hreq, hlate⟩
    · simp only [Option.map_some', Option.getD_some] at hbad
      rcases hbad with hbad | hbad
      · exact absurd hrp hbad
      · exact absurd hp hbad
    · have hinv := calcLate_inv hlate
      have hfiles : res.db.changesetFiles =
          pruneFiles (pruneFiles db.changesetFiles csId ref.refId)
            ref.refId csId := by
        rw [hinv.2.1, phaseB_changesetFiles]
        rw [if_pos (by simpa using hpm)]
        simp
      have hchs : res.db.changesets =
          setComplete (setComplete db.changesets ref.refId) csId := by
        rw [hinv.1, phaseB_changesets]
        rw [if_pos (by simpa using hpm)]
        simp
      refine ⟨?_, ?_, ?_⟩
      · intro fl
        rw [hrun, hfiles, fileSet_prune_other (Ne.symm hne),
          fileSet_prune_self]
      · intro fl
        rw [hrun, hfiles, fileSet_prune_self,
          fileSet_prune_other hne, fileSet_prune_self]
        tauto
      · intro r hr hid
        rw [hrun, hchs] at hr
        exact setComplete2_complete r hr hid



def exampleDb1 : DB :=
  { changesets := [⟨1, 1, some 5, 6, none, false, true, true⟩]
    contentDifferences := [⟨1, false⟩]
    highlightRequests := [⟨1, false, false⟩]
    changesetFiles := [⟨1, 7, some "o7", some "n7"⟩,
      ⟨1, 8, some "o8", some "n8"⟩]
    fileDifferences := [⟨1, 7, none, none, false⟩]
    changedLines := [⟨1, 7, 0, 0, 1, 1, 1, 1, none⟩]
    highlightFiles := []
    changesetErrors := [⟨1, .examineFiles 1 [8], true⟩]
    commits := [(5, "sha5"), (6, "sha6")]
    files := [(7, "a.txt"), (8, "b.txt")]
    highlightLanguages := [] }

/-- C1 counterexample: a concrete state on which `calculate_remaining` sets
`changesetcontentdifferences.complete` to true although (a) a
`changesetfile` row (file 8, whose `ExamineFiles` key is recorded in
`changeseterrors`) still lacks a non-pending `changesetfiledifference` row
and (b) a `changesetchangedlines` row still has `analysis` NULL (its
`AnalyzeChangedLines` job is emitted in the same pass, after the flag is
already set).  This refutes C1 as stated. -/
theorem c1_counterexample :
    contentCompleteBefore exampleDb1 1 = false ∧
    contentCompleteBefore (runCalc exampleDb1 1 []) 1 = true ∧
    (∃ f ∈ (runCalc exampleDb1 1 []).changesetFiles, f.changeset = 1 ∧
      ¬ ∃ d ∈ (runCalc exampleDb1 1 []).fileDifferences,
        d.changeset = 1 ∧ d.file = f.file ∧ d.comparisonPending = false) ∧
    (∃ l ∈ (runCalc exampleDb1 1 []).changedLines, l.changeset = 1 ∧
      l.analysis = none) := by decide

theorem phaseB_contentDifferences (db : DB) (csId : Nat) (isPM : Bool)
    (refId : Nat) :
    (phaseB db csId isPM refId).contentDifferences =
      db.contentDifferences := by
  unfold phaseB
  split <;> rfl

theorem phaseB_fileDifferences (db : DB) (csId : Nat) (isPM : Bool)
    (refId : Nat) :
    (phaseB db csId isPM refId).fileDifferences = db.fileDifferences := by
  unfold phaseB
  split <;> rfl

theorem phaseB_files (db : DB) (csId : Nat) (isPM : Bool) (refId : Nat) :
    (phaseB db csId isPM refId).files = db.files := by
  unfold phaseB
  split <;> rfl

theorem contentCompleteBefore_congr {db1 db2 : DB} {csId : Nat}
    (h : db1.contentDifferences = db2.contentDifferences) :
    contentCompleteBefore db1 csId = contentCompleteBefore db2 csId := by
  unfold contentCompleteBefore
  rw [h]

theorem missingDiffFiles_congr {db1 db2 : DB} {csId : Nat}
    (h1 : db1.changesetFiles = db2.changesetFiles)
    (h2 : db1.fileDifferences = db2.fileDifferences)
    (h3 : db1.files = db2.files) :
    missingDiffFiles db1 csId = missingDiffFiles db2 csId := by
  unfold missingDiffFiles fileKnown
  rw [h1, h2, h3]

theorem pendingDiffFiles_congr {db1 db2 : DB} {csId : Nat}
    (h1 : db1.changesetFiles = db2.changesetFiles)
    (h2 : db1.fileDifferences = db2.fileDifferences)
    (h3 : db1.files = db2.files) :
    pendingDiffFiles db1 csId = pendingDiffFiles db2 csId := by
  unfold pendingDiffFiles fileKnown
  rw [h1, h2, h3]

/-- The `changesetcontentdifferences` output of `contentStep`: unchanged, or
(when the filtered examine/file-difference job set is empty and the flag was
not set before) the completing update. -/
theorem contentStep_cd (db : DB) (csId : Nat) (failed jobs : List JobKey) :
    (contentStep db csId failed jobs).1 = db.contentDifferences ∨
    (((examineFilesJobs csId (missingDiffFiles db csId) ++
        calculateFileDifferenceJobs csId (pendingDiffFiles db csId)).filter
        (fun k => k ∉ failed)) = [] ∧
      (contentStep db csId failed jobs).1 =
        setContentComplete db.contentDifferences csId) := by
  simp only [contentStep]
  split
  · next h => exact Or.inr ⟨h.1, rfl⟩
  · exact Or.inl rfl

/-- C1 amended: when `calculate_remaining` flips
`changesetcontentdifferences.complete` from false to true, every
examine/file-difference job it would otherwise emit has its key in the
failed set: if files still lack a `changesetfiledifference` row, the
`ExamineFiles` batch key is failed, and every file with
`comparison_pending` has its `CalculateFileDifference` key failed.  (In
particular, absent recorded errors, no `changesetfile` lacks a non-pending
`changesetfiledifference`.)  Rows with `analysis` NULL may remain: the
completion test does not inspect them. -/
theorem c1_amended (db : DB) (csId : Nat) (failed0 : List JobKey)
    (hbefore : contentCompleteBefore db csId = false)
    (hafter : contentCompleteBefore (runCalc db csId failed0) csId = true) :
    (missingDiffFiles (runCalc db csId failed0) csId ≠ [] →
      JobKey.examineFiles csId
        (missingDiffFiles (runCalc db csId failed0) csId) ∈
        failed0 ++ errorKeys db csId) ∧
    (∀ fl ∈ pendingDiffFiles (runCalc db csId failed0) csId,
      JobKey.calculateFileDifference csId fl ∈
        failed0 ++ errorKeys db csId) := by
  cases hres : calculateRemaining db csId failed0 with
  | none =>
    rw [show runCalc db csId failed0 = db by simp [runCalc, hres]] at hafter
    rw [hbefore] at hafter
    exact absurd hafter (by simp)
  | some res =>
    have hrun : runCalc db csId failed0 = res.db := by simp [runCalc, hres]
    rw [hrun] at hafter ⊢
    obtain ⟨loaded, hload, refInfo, href, hcases⟩ :=
      calculateRemaining_inv hres
    rcases hcases with ⟨_, hdb⟩ | ⟨_, _, request, hreq, hlate⟩
    · rw [hdb, hbefore] at hafter
      exact absurd hafter (by simp)
    · have hinv := calcLate_inv hlate
      have hBcd := phaseB_contentDifferences db csId
        (decide (loaded.forMergeId = some loaded.toCommitId))
        ((refInfo.map (fun r => r.refId)).getD 0)
      have hmiss : missingDiffFiles res.db csId =
          missingDiffFiles (phaseB db csId
            (decide (loaded.forMergeId = some loaded.toCommitId))
            ((refInfo.map (fun r => r.refId)).getD 0)) csId :=
        missingDiffFiles_congr hinv.2.1 hinv.2.2.1
          hinv.2.2.2.2.2.2.1
      have hpend : pendingDiffFiles res.db csId =
          pendingDiffFiles (phaseB db csId
            (decide (loaded.forMergeId = some loaded.toCommitId))
            ((refInfo.map (fun r => r.refId)).getD 0)) csId :=
        pendingDiffFiles_congr hinv.2.1 hinv.2.2.1
          hinv.2.2.2.2.2.2.1
      rcases contentStep_cd (phaseB db csId
          (decide (loaded.forMergeId = some loaded.toCommitId))
          ((refInfo.map (fun r => r.refId)).getD 0)) csId
          (failed0 ++ errorKeys db csId)
          (phaseAJobs (failed0 ++ errorKeys db csId) csId refInfo
            loaded.processed) with hcd | ⟨hempty, hcd⟩
      · rw [contentCompleteBefore_congr
            (hinv.2.2.2.2.2.2.2.trans (hcd.trans hBcd))] at hafter
        rw [hbefore] at hafter
        exact absurd hafter (by simp)
      · have hall : ∀ k ∈ examineFilesJobs csId
            (missingDiffFiles (phaseB db csId
              (decide (loaded.forMergeId = some loaded.toCommitId))
              ((refInfo.map (fun r => r.refId)).getD 0)) csId) ++
            calculateFileDifferenceJobs csId
              (pendingDiffFiles (phaseB db csId
                (decide (loaded.forMergeId = some loaded.toCommitId))
                ((refInfo.map (fun r => r.refId)).getD 0)) csId),
            k ∈ failed0 ++ errorKeys db csId := by
          intro k hk
          have h2 : ¬ k ∉ failed0 ++ errorKeys db csId := by
            simpa using List.filter_eq_nil_iff.1 hempty k hk
          exact not_not.1 h2
        constructor
        · intro hne
          rw [hmiss] at hne ⊢
          refine hall _ (List.mem_append.2 (Or.inl ?_))
          simp only [examineFilesJobs, if_neg hne]
          exact List.mem_singleton.2 rfl
        · intro fl hfl
          rw [hpend] at hfl
          refine hall _ (List.mem_append.2 (Or.inr ?_))
          simp only [calculateFileDifferenceJobs]
          exact List.mem_map.2 ⟨fl, hfl, rfl⟩



/-- Witness for the amended C1 at the concrete counterexample state: the
flag flips there, so the missing file 8 `ExamineFiles` batch key must be
among the recorded errors. -/
theorem c1_amended_witness :
    JobKey.examineFiles 1 [8] ∈ [] ++ errorKeys exampleDb1 1 :=
  (c1_amended exampleDb1 1 [] (by decide) (by decide)).1 (by decide)

/-- Witness for C3 at a concrete state with an error row: the emitted
analyze job is not among the recorded error keys. -/
theorem c3_witness :
    JobKey.analyzeChangedLines 1 7 ∉ errorKeys exampleDb1 1 :=
  c3_no_failed_reemission exampleDb1 1 [] (.analyzeChangedLines 1 7)
    (by decide)

def exampleDb2 : DB :=
  { changesets := [⟨1, 1, some 5, 10, some 10, false, true, false⟩,
      ⟨2, 1, some 3, 5, some 10, false, true, false⟩]
    contentDifferences := []
    highlightRequests := [⟨1, false, false⟩]
    changesetFiles := [⟨1, 21, some "a1", some "a2"⟩,
      ⟨1, 22, some "b1", some "b2"⟩, ⟨2, 22, some "b0", some "b1"⟩,
      ⟨2, 23, some "c0", some "c1"⟩]
    fileDifferences := []
    changedLines := []
    highlightFiles := []
    changesetErrors := []
    commits := [(10, "shA"), (5, "shB"), (3, "shC")]
    files := [(21, "a.txt"), (22, "b.txt"), (23, "c.txt")]
    highlightLanguages := [] }

/-- Witness for C2 at a concrete merge state: the reference changeset row
(id 2) is in the final table and is complete. -/
theorem c2_witness :
    (⟨2, 1, some 3, 5, some 10, false, true, true⟩ : ChangesetRow) ∈
      (runCalc exampleDb2 1 []).changesets ∧
    (⟨2, 1, some 3, 5, some 10, false, true, true⟩ :
      ChangesetRow).complete = true :=
  ⟨by decide,
   (c2_merge_filter exampleDb2 1 []
     ⟨true, false, 10, "shA", some 5, some "shB", some 10, false⟩
     ⟨2, true, "shC"⟩ (by decide) (by decide) (by decide) (by decide)
     (by decide) (by decide) (by decide)).2.2 _ (by decide) (by decide)⟩

/-- Witness for C4 at a concrete merge state: the primary changeset row
(id 1) is in the final table, is complete, and is processed. -/
theorem c4_witness :
    (⟨1, 1, some 5, 10, some 10, false, true, true⟩ : ChangesetRow) ∈
      (runCalc exampleDb2 1 []).changesets ∧
    (⟨1, 1, some 5, 10, some 10, false, true, true⟩ :
      ChangesetRow).processed = true :=
  ⟨by decide,
   (c4_complete_implies_processed exampleDb2 1 [] (by decide)
     (by decide)).1 _ (by decide) (by decide)⟩

theorem collapseBlocks_pos :
    ∀ (l : List (Nat × Nat × Nat)) (st : Nat × Nat × Nat),
      ∀ x ∈ collapseBlocks st l, x.2.2 ≠ 0 := by
  intro l
  induction l with
  | nil =>
    intro st x hx
    obtain ⟨i1, j1, k1⟩ := st
    simp only [collapseBlocks] at hx
    split at hx
    · next h => rw [List.mem_singleton.1 hx]; exact h
    · simp at hx
  | cons b rest ih =>
    intro st x hx
    obtain ⟨i1, j1, k1⟩ := st
    obtain ⟨i2, j2, k2⟩ := b
    simp only [collapseBlocks] at hx
    split at hx
    · exact ih _ x hx
    · rcases List.mem_append.1 hx with h1 | h1
      · split at h1
        · next h => rw [List.mem_singleton.1 h1]; exact h
        · simp at h1
      · exact ih _ x h1

/-- `len(sm.get_matching_blocks()) == 2` says exactly: one real (nonzero)
matching block. -/
theorem getMatchingBlocks_length_two_iff (a b : List String) :
    (getMatchingBlocks a b).length = 2 ↔
      ((getMatchingBlocks a b).filter
        (fun blk => blk.2.2 ≠ 0)).length = 1 := by
  unfold getMatchingBlocks
  rw [List.filter_append]
  have hpos := collapseBlocks_pos
    (matchingBlocksAux a b (b2jOf b) (a.length + 1) 0 a.length 0 b.length)
    (0, 0, 0)
  rw [List.filter_eq_self.2 (fun x hx => by simpa using hpos x hx)]
  simp [List.length_append]

/-- The C5 score formula, written from the claim's words: twice the matching
characters over the total non-whitespace length, except that with more than
five non-whitespace characters on the deleted side and exactly one real
matching block it is the matching characters over the deleted side's
length. -/
def specScore (a b : List String) (aLength bLength : Nat) : ℚ :=
  let blocks := getMatchingBlocks a b
  let matching := matchingChars blocks a
  if 5 < aLength ∧
      (blocks.filter (fun blk => blk.2.2 ≠ 0)).length = 1 then
    (matching : ℚ) / (aLength : ℚ)
  else 2 * (matching : ℚ) / ((aLength : ℚ) + (bLength : ℚ))

theorem ratio_toRat_eq_specScore (a b : List String)
    (aLength bLength : Nat) :
    (ratio (getMatchingBlocks a b) a aLength bLength).toRat =
      specScore a b aLength bLength := by
  unfold ratio specScore
  simp only [apply_ite Frac.toRat]
  rw [if_congr (and_congr_right (fun _ =>
    getMatchingBlocks_length_two_iff a b)) rfl rfl]
  split
  · rfl
  · show ((2 * matchingChars (getMatchingBlocks a b) a : Nat) : ℚ) /
        ((aLength + bLength : Nat) : ℚ) = _
    push_cast
    ring

theorem Frac_lt_iff_toRat {q1 q2 : Frac} (h1 : 0 < q1.den)
    (h2 : 0 < q2.den) : q1.lt q2 ↔ q1.toRat < q2.toRat := by
  unfold Frac.lt Frac.toRat
  rw [div_lt_div_iff₀ (by exact_mod_cast h1) (by exact_mod_cast h2)]
  exact_mod_cast Iff.rfl

theorem filter_dropWhile_not {p : Char → Bool} :
    ∀ l : List Char,
      (l.dropWhile p).filter (fun c => ¬ p c) = l.filter (fun c => ¬ p c) := by
  intro l
  induction l with
  | nil => simp
  | cons c cs ih =>
    by_cases h : p c
    · rw [List.dropWhile_cons_of_pos h, ih, List.filter_cons_of_neg]
      simp [h]
    · rw [List.dropWhile_cons_of_neg h]

theorem filter_pyStripChars (l : List Char) :
    (pyStripChars l).filter (fun c => ¬ isPySpace c) =
      l.filter (fun c => ¬ isPySpace c) := by
  unfold pyStripChars
  rw [List.filter_reverse, filter_dropWhile_not, List.filter_reverse,
    List.reverse_reverse, filter_dropWhile_not]

theorem removeWS_pyStrip (s : String) :
    removeWS (pyStrip s) = removeWS s := by
  unfold removeWS pyStrip
  show ((pyStripChars s.toList).filter (fun c => ¬ isPySpace c)).asString = _
  rw [filter_pyStripChars]

theorem notIgnore_noWS_pos {s : String} (h : ¬ matchesIgnore s) :
    1 ≤ (removeWS s).length := by
  by_contra hlen
  have hempty : (removeWS s).length = 0 := by omega
  have hnil : s.toList.filter (fun c => ¬ isPySpace c) = [] := by
    have : (removeWS s).toList = s.toList.filter (fun c => ¬ isPySpace c) :=
      rfl
    have h0 : (removeWS s).toList.length = 0 := hempty
    rw [this] at h0
    exact List.length_eq_zero.1 h0
  have hall : ∀ c ∈ s.toList, isPySpace c := by
    intro c hc
    by_contra hcs
    have : c ∈ s.toList.filter (fun c => ¬ isPySpace c) :=
      List.mem_filter.2 ⟨hc, by simpa using hcs⟩
    rw [hnil] at this
    exact absurd this (List.not_mem_nil c)
  have hdrop : s.toList.dropWhile isPySpace = [] :=
    List.dropWhile_eq_nil_iff.2 hall
  have hstrip : pyStrip s = "" := by
    unfold pyStrip pyStripChars
    rw [hdrop]
    rfl
  refine h ?_
  unfold matchesIgnore
  rw [hstrip]
  decide

theorem ratio_den_pos {blocks : List (Nat × Nat × Nat)} {a : List String}
    {aLength bLength : Nat} (ha : 1 ≤ aLength) (hb : 1 ≤ bLength) :
    0 < (ratio blocks a aLength bLength).den := by
  unfold ratio
  split
  · show 0 < aLength
    omega
  · show 0 < aLength + bLength
    omega



/-- Every collected candidate match stores the words, blocks and score of a
non-ignored line pair, and passed the `r > 0.5` guard. -/
theorem mem_collectMatches {D I : List String} {m : MatchData}
    (hm : m ∈ collectMatchesOf D I) :
    ∃ d i, ¬ matchesIgnore d ∧ ¬ matchesIgnore i ∧
      m.dWords = wordsOf d ∧ m.iWords = wordsOf i ∧
      m.blocks = getMatchingBlocks (wordsOf d) (wordsOf i) ∧
      m.r = ratio (getMatchingBlocks (wordsOf d) (wordsOf i)) (wordsOf d)
        (removeWS (pyStrip d)).length (removeWS (pyStrip i)).length ∧
      fracHalf.lt m.r := by
  simp only [collectMatchesOf, List.mem_flatMap] at hm
  obtain ⟨p, hp, hmem⟩ := hm
  split at hmem
  · simp at hmem
  · split at hmem
    · next hignored =>
      simp only [List.mem_filterMap] at hmem
      obtain ⟨q, hq, hsome⟩ := hmem
      split at hsome
      · next hignorei =>
        split at hsome
        · next hlt =>
          rw [Option.some.injEq] at hsome
          subst hsome
          exact ⟨p.2, q.2, by simpa using hignored, by simpa using hignorei,
            rfl, rfl, rfl, rfl, hlt⟩
        · exact Option.noConfusion hsome
      · exact Option.noConfusion hsome
    · simp at hmem

/-- C5: in `analyzeChunk1`'s per-line-pair scoring, the score equals
`2 * matching_chars / (|D_nows| + |I_nows|)` — where `matching_chars` sums
the stripped lengths of the deleted-side words inside the matcher's
matching blocks — except when the deleted line has more than 5
non-whitespace characters and the matcher has exactly one real matching
block, in which case it is `matching_chars / |D_nows|`; and only pairs with
score `> 0.5` are collected as candidate matches. -/
theorem c5_score_formula (a b : List String) (aLength bLength : Nat)
    (D I : List String) :
    (ratio (getMatchingBlocks a b) a aLength bLength).toRat =
      specScore a b aLength bLength ∧
    (∀ m ∈ collectMatchesOf D I,
      (1/2 : ℚ) < m.r.toRat ∧
      ∃ d i, ¬ matchesIgnore d ∧ ¬ matchesIgnore i ∧
        m.dWords = wordsOf d ∧ m.iWords = wordsOf i ∧
        m.r.toRat = specScore (wordsOf d) (wordsOf i)
          (removeWS d).length (removeWS i).length) := by
  refine ⟨ratio_toRat_eq_specScore a b aLength bLength, ?_⟩
  intro m hm
  obtain ⟨d, i, hd, hi, hdw, hiw, hblocks, hr, hlt⟩ := mem_collectMatches hm
  have hda : 1 ≤ (removeWS (pyStrip d)).length := by
    rw [removeWS_pyStrip]; exact notIgnore_noWS_pos hd
  have hia : 1 ≤ (removeWS (pyStrip i)).length := by
    rw [removeWS_pyStrip]; exact notIgnore_noWS_pos hi
  have hden : 0 < m.r.den := by
    rw [hr]; exact ratio_den_pos hda hia
  have hhalf : (1/2 : ℚ) < m.r.toRat := by
    have := (Frac_lt_iff_toRat (by decide) hden).1 hlt
    calc (1/2 : ℚ) = fracHalf.toRat := by unfold Frac.toRat fracHalf; norm_num
    _ < m.r.toRat := this
  refine ⟨hhalf, d, i, hd, hi, hdw, hiw, ?_⟩
  rw [hr, ratio_toRat_eq_specScore]
  rw [removeWS_pyStrip, removeWS_pyStrip]

/-- Witness for C5 at a concrete collected candidate. -/
theorem c5_witness :
    (1/2 : ℚ) < (MatchData.r ⟨⟨4, 4⟩, 0, 0, ["ab", "\n"], ["ab", "\n"],
      [(0, 0, 2), (2, 2, 0)]⟩).toRat :=
  ((c5_score_formula [] [] 0 0 ["ab\n"] ["ab\n"]).2
    ⟨⟨4, 4⟩, 0, 0, ["ab", "\n"], ["ab", "\n"], [(0, 0, 2), (2, 2, 0)]⟩
    (by decide)).1

/-- The C6 description of `analyzeChunk`'s slow path, written from the
claim's words: run the line-level matcher on whitespace-normalized copies;
for each real matching block (paired with the end of the previous one via
`scanl`), analyze the mismatched window where both sides advanced with the
window offsets and send the matching window to `analyzeWhiteSpaceChanges`
with `full = moved`; finish with the trailing mismatched window. -/
def specWindowEdits (D I : List String) (moved : Bool) : List String :=
  let dN := D.map normalizeWS
  let iN := I.map normalizeWS
  let bs := (getMatchingBlocks dN iN).filter (fun blk => blk.2.2 ≠ 0)
  let starts := bs.scanl
    (fun _ blk => (blk.1 + blk.2.2, blk.2.1 + blk.2.2)) (0, 0)
  ((starts.zip bs).flatMap (fun pb =>
    (if pb.1.1 < pb.2.1 ∧ pb.1.2 < pb.2.2.1 then
      [analyzeChunk1 ((D.drop pb.1.1).take (pb.2.1 - pb.1.1))
        ((I.drop pb.1.2).take (pb.2.2.1 - pb.1.2)) pb.1.1 pb.1.2]
    else []) ++
    [analyzeWhiteSpaceChanges ((D.drop pb.2.1).take pb.2.2.2)
      ((I.drop pb.2.2.1).take pb.2.2.2) false pb.2.1 pb.2.2.1 moved])) ++
  (let last := starts.getLastD (0, 0)
   if last.1 < D.length ∧ last.2 < I.length then
     [analyzeChunk1 (D.drop last.1) (I.drop last.2) last.1 last.2]
   else [])

theorem getLastD_of_ne_nil {α} {l : List α} (h : l ≠ []) (d1 d2 : α) :
    l.getLastD d1 = l.getLastD d2 := by
  cases l with
  | nil => exact absurd rfl h
  | cons x xs => simp [List.getLastD]

theorem cons_scanl_getLast? (x : Nat × Nat)
    (f : (Nat × Nat) → (Nat × Nat × Nat) → (Nat × Nat)) (b : Nat × Nat)
    (l : List (Nat × Nat × Nat)) :
    (x :: List.scanl f b l).getLast? = (List.scanl f b l).getLast? := by
  cases hc : List.scanl f b l with
  | nil =>
    exact absurd hc (by cases l <;> simp [List.scanl_nil, List.scanl_cons])
  | cons y ys => simp [List.getLast?_cons_cons]

theorem chunkEditsGo_eq_windows (D I : List String) (moved : Bool) :
    ∀ (blocks : List (Nat × Nat × Nat)) (pi pj : Nat),
      chunkEditsGo D I moved blocks pi pj =
        (let bs := blocks.filter (fun blk => blk.2.2 ≠ 0)
         let starts := bs.scanl
           (fun _ blk => (blk.1 + blk.2.2, blk.2.1 + blk.2.2)) (pi, pj)
         (starts.zip bs).flatMap (fun pb =>
           (if pb.1.1 < pb.2.1 ∧ pb.1.2 < pb.2.2.1 then
             [analyzeChunk1 ((D.drop pb.1.1).take (pb.2.1 - pb.1.1))
               ((I.drop pb.1.2).take (pb.2.2.1 - pb.1.2)) pb.1.1 pb.1.2]
           else []) ++
           [analyzeWhiteSpaceChanges ((D.drop pb.2.1).take pb.2.2.2)
             ((I.drop pb.2.2.1).take pb.2.2.2) false pb.2.1 pb.2.2.1
             moved]) ++
         (let last := starts.getLastD (pi, pj)
          if last.1 < D.length ∧ last.2 < I.length then
            [analyzeChunk1 (D.drop last.1) (I.drop last.2) last.1 last.2]
          else [])) := by
  intro blocks
  induction blocks with
  | nil =>
    intro pi pj
    simp [chunkEditsGo, List.scanl]
  | cons blk rest ih =>
    intro pi pj
    obtain ⟨i, j, n⟩ := blk
    by_cases hn : n = 0
    · subst hn
      show chunkEditsGo D I moved ((i, j, 0) :: rest) pi pj = _
      rw [show chunkEditsGo D I moved ((i, j, 0) :: rest) pi pj =
        chunkEditsGo D I moved rest pi pj from by simp [chunkEditsGo]]
      rw [ih pi pj]
      simp
    · show chunkEditsGo D I moved ((i, j, n) :: rest) pi pj = _
      rw [show chunkEditsGo D I moved ((i, j, n) :: rest) pi pj =
        (if pi < i ∧ pj < j then
          [analyzeChunk1 ((D.drop pi).take (i - pi))
            ((I.drop pj).take (j - pj)) pi pj]
        else []) ++
        analyzeWhiteSpaceChanges ((D.drop i).take n) ((I.drop j).take n)
          false i j moved ::
        chunkEditsGo D I moved rest (i + n) (j + n) from by
          simp [chunkEditsGo, hn]]
      rw [ih (i + n) (j + n)]
      have hfil : List.filter (fun blk => decide (blk.2.2 ≠ 0))
          ((i, j, n) :: rest) =
          (i, j, n) :: List.filter (fun blk => decide (blk.2.2 ≠ 0)) rest :=
        by simp [List.filter_cons, hn]
      rw [hfil]
      simp only [List.scanl_cons, List.zip_cons_cons, List.flatMap_cons,
        List.getLastD_cons]
      rw [getLastD_of_ne_nil (by
        cases hc : (List.filter (fun blk => decide (blk.2.2 ≠ 0)) rest) with
        | nil => simp [List.scanl_nil]
        | cons x xs => simp [List.scanl_cons]) ((pi, pj)) ((i + n, j + n))]
      simp [List.append_assoc]
      rw [cons_scanl_getLast?]



/-- C6: for non-empty `D` and `I`, if `|D| * |I| <= 10000` and `moved` is
false, `analyzeChunk` returns exactly `analyzeChunk1(D, I)` (a falsy result
is mapped to the empty string, which is the identity here); otherwise it
runs the line-level matcher on whitespace-normalized copies, analyzes each
mismatched window where both sides advanced with the window offsets,
routes each matching window to `analyzeWhiteSpaceChanges` with
`full = moved`, and joins the non-empty pieces with `";"`
(`specWindowEdits` restates that pipeline from the claim's words). -/
theorem c6_dispatch (D I : List String) (moved : Bool)
    (hD : D ≠ []) (hI : I ≠ []) :
    (D.length * I.length ≤ 10000 ∧ moved = false →
      analyzeChunk D I moved = some (analyzeChunk1 D I 0 0)) ∧
    (¬ (D.length * I.length ≤ 10000 ∧ moved = false) →
      analyzeChunk D I moved = some (String.intercalate ";"
        ((specWindowEdits D I moved).filter (fun e => ¬ e.isEmpty)))) := by
  have hcond : ¬ (D.isEmpty ∨ I.isEmpty) := by
    simp [List.isEmpty_iff, hD, hI]
  constructor
  · intro h
    unfold analyzeChunk
    rw [if_neg hcond, if_pos h]
  · intro h
    unfold analyzeChunk
    rw [if_neg hcond, if_neg h]
    simp only [chunkEditsGo_eq_windows, specWindowEdits]

/-- Witness for C6 on the slow path (`moved = true`). -/
theorem c6_witness :
    analyzeChunk ["a\n"] ["a\n"] true = some (String.intercalate ";"
      ((specWindowEdits ["a\n"] ["a\n"] true).filter
        (fun e => ¬ e.isEmpty))) :=
  (c6_dispatch ["a\n"] ["a\n"] true (by decide) (by decide)).2 (by decide)

end Critic

namespace Critic

theorem greedyAccept_subset :
    ∀ (fuel : Nat) (ms : List MatchData) (eqs : List (Nat × Nat)),
      ∀ y ∈ (greedyAccept fuel ms eqs).1, y ∈ ms := by
  intro fuel
  induction fuel with
  | zero =>
    intro ms eqs y hy
    cases ms <;> simp [greedyAccept] at hy
  | succ fuel ih =>
    intro ms eqs y hy
    cases ms with
    | nil => simp [greedyAccept] at hy
    | cons m rest =>
      simp only [greedyAccept] at hy
      rcases List.mem_cons.1 hy with h | h
      · rw [h]; exact List.mem_cons_self m rest
      · exact List.mem_cons.2 (Or.inr (List.mem_of_mem_filter (ih _ _ y h)))

theorem greedyAccept_pairwise :
    ∀ (fuel : Nat) (ms : List MatchData) (eqs : List (Nat × Nat)),
      List.Pairwise (fun m m' => m.dIdx ≠ m'.dIdx ∧ m.iIdx ≠ m'.iIdx ∧
        ((m.dIdx < m'.dIdx) ↔ (m.iIdx < m'.iIdx)))
        (greedyAccept fuel ms eqs).1 := by
  intro fuel
  induction fuel with
  | zero =>
    intro ms eqs
    cases ms <;> simp [greedyAccept]
  | succ fuel ih =>
    intro ms eqs
    cases ms with
    | nil => simp [greedyAccept]
    | cons m rest =>
      simp only [greedyAccept]
      refine List.pairwise_cons.2 ⟨?_, ih _ _⟩
      intro y hy
      have hy' := greedyAccept_subset fuel _ _ y hy
      have hfy := List.of_mem_filter hy'
      simp only [decide_eq_true_eq, Bool.and_eq_true, decide_not,
        Bool.not_eq_true'] at hfy
      obtain ⟨h1, h2, h3⟩ : y.dIdx ≠ m.dIdx ∧ y.iIdx ≠ m.iIdx ∧
          ((y.dIdx < m.dIdx) ↔ (y.iIdx < m.iIdx)) := by
        constructor
        · intro he
          have := hfy.1
          simp [he] at this
        constructor
        · intro he
          have := hfy.2.1
          simp [he] at this
        · have := hfy.2.2
          simpa using this
      exact ⟨Ne.symm h1, Ne.symm h2, by omega⟩

theorem insertAcceptedAsc_mem (m : MatchData) :
    ∀ (l : List MatchData) (y : MatchData),
      y ∈ insertAcceptedAsc m l → y = m ∨ y ∈ l := by
  intro l
  induction l with
  | nil => intro y hy; simp [insertAcceptedAsc] at hy; exact Or.inl hy
  | cons x xs ih =>
    intro y hy
    simp only [insertAcceptedAsc] at hy
    split at hy
    · rcases List.mem_cons.1 hy with h | h
      · exact Or.inl h
      · exact Or.inr h
    · rcases List.mem_cons.1 hy with h | h
      · exact Or.inr (by rw [h]; exact List.mem_cons_self x xs)
      · rcases ih y h with h2 | h2
        · exact Or.inl h2
        · exact Or.inr (List.mem_cons.2 (Or.inr h2))

theorem sortAcceptedAsc_mem :
    ∀ (l : List MatchData) (y : MatchData),
      y ∈ sortAcceptedAsc l → y ∈ l := by
  intro l
  induction l with
  | nil => intro y hy; simp [sortAcceptedAsc] at hy
  | cons x xs ih =>
    intro y hy
    simp only [sortAcceptedAsc] at hy
    rcases insertAcceptedAsc_mem x _ y hy with h | h
    · rw [h]; exact List.mem_cons_self x xs
    · exact List.mem_cons.2 (Or.inr (ih y h))

theorem insertAcceptedAsc_sorted (m : MatchData) :
    ∀ (l : List MatchData),
      l.Pairwise (fun a b => a.dIdx < b.dIdx ∨
        (a.dIdx = b.dIdx ∧ a.iIdx ≤ b.iIdx)) →
      (insertAcceptedAsc m l).Pairwise (fun a b => a.dIdx < b.dIdx ∨
        (a.dIdx = b.dIdx ∧ a.iIdx ≤ b.iIdx)) := by
  intro l
  induction l with
  | nil => intro _; simp [insertAcceptedAsc]
  | cons x xs ih =>
    intro hl
    obtain ⟨hx, hxs⟩ := List.pairwise_cons.1 hl
    simp only [insertAcceptedAsc]
    split
    · next hcond =>
      refine List.pairwise_cons.2 ⟨?_, hl⟩
      intro y hy
      rcases List.mem_cons.1 hy with h | h
      · rw [h]; exact hcond
      · have := hx y h
        omega
    · next hcond =>
      refine List.pairwise_cons.2 ⟨?_, ih hxs⟩
      intro y hy
      rcases insertAcceptedAsc_mem m _ y hy with h | h
      · rw [h]; omega
      · exact hx y h

theorem sortAcceptedAsc_sorted :
    ∀ l : List MatchData,
      (sortAcceptedAsc l).Pairwise (fun a b => a.dIdx < b.dIdx ∨
        (a.dIdx = b.dIdx ∧ a.iIdx ≤ b.iIdx)) := by
  intro l
  induction l with
  | nil => simp [sortAcceptedAsc]
  | cons x xs ih => exact insertAcceptedAsc_sorted x _ ih

theorem insertAcceptedAsc_perm (m : MatchData) :
    ∀ l : List MatchData, (insertAcceptedAsc m l).Perm (m :: l) := by
  intro l
  induction l with
  | nil => simp [insertAcceptedAsc]
  | cons x xs ih =>
    simp only [insertAcceptedAsc]
    split
    · exact List.Perm.refl _
    · exact (ih.cons x).trans (List.Perm.swap m x xs)

theorem sortAcceptedAsc_perm :
    ∀ l : List MatchData, (sortAcceptedAsc l).Perm l := by
  intro l
  induction l with
  | nil => simp [sortAcceptedAsc]
  | cons x xs ih =>
    exact (insertAcceptedAsc_perm x (sortAcceptedAsc xs)).trans (ih.cons x)

/-- The sorted accepted list has strictly increasing deleted indices, given
that the accepted deleted indices are pairwise distinct. -/
theorem sortAcceptedAsc_chain {l : List MatchData}
    (hne : l.Pairwise (fun a b => a.dIdx ≠ b.dIdx)) :
    (sortAcceptedAsc l).Chain' (fun a b => a.dIdx < b.dIdx) := by
  have hne2 : (sortAcceptedAsc l).Pairwise
      (fun a b => a.dIdx ≠ b.dIdx) :=
    ((sortAcceptedAsc_perm l).pairwise_iff
      (fun h => Ne.symm h)).2 hne
  have hsorted := sortAcceptedAsc_sorted l
  have hlt : (sortAcceptedAsc l).Pairwise
      (fun a b => a.dIdx < b.dIdx) :=
    (hsorted.and hne2).imp (fun h => by omega)
  exact hlt.chain'

end Critic

namespace Critic

/-- The equality-drain loop emits records with strictly increasing printed
deleted indices, all strictly between the previous index and the current
anchor, and leaves `previousDeletedIndex` either unchanged or below the
anchor. -/
theorem drainEquals_spec (D I : List String) (oA oB dIdx iIdx : Nat) :
    ∀ (fuel : Nat) (eqs : List (Nat × Nat)) (prevD prevI : Int),
      List.Chain' (fun a b => a.1 < b.1)
        (drainEquals D I oA oB dIdx iIdx fuel eqs prevD prevI).1 ∧
      (∀ r ∈ (drainEquals D I oA oB dIdx iIdx fuel eqs prevD prevI).1,
        prevD + oA < (r.1 : Int) ∧ (r.1 : Int) < (dIdx : Int) + oA) ∧
      ((drainEquals D I oA oB dIdx iIdx fuel eqs prevD prevI).2.1 = prevD ∨
        (drainEquals D I oA oB dIdx iIdx fuel eqs prevD prevI).2.1 <
          (dIdx : Int)) := by
  intro fuel
  induction fuel with
  | zero =>
    intro eqs prevD prevI
    cases eqs <;> simp [drainEquals]
  | succ fuel ih =>
    intro eqs prevD prevI
    cases eqs with
    | nil => simp [drainEquals]
    | cons e rest =>
      obtain ⟨di, ii⟩ := e
      simp only [drainEquals]
      split
      · next houter =>
        split
        · next hguard =>
          obtain ⟨ihc, ihb, ihp⟩ := ih
            (rest.dropWhile (fun e2 => di = e2.1 ∨ ii = e2.2))
            (di : Int) (ii : Int)
          refine ⟨?_, ?_, ?_⟩
          · simp only [List.singleton_append]
            apply List.chain'_cons'.2
            refine ⟨?_, ihc⟩
            intro y hy
            have hmem := List.mem_of_mem_head? hy
            have := (ihb y hmem).1
            omega
          · intro r hr
            simp only [List.singleton_append] at hr
            rcases List.mem_cons.1 hr with h | h
            · rw [h]
              constructor <;> simp <;> omega
            · have := ihb r h
              obtain ⟨hg1, hg2, hg3, hg4⟩ := hguard
              constructor <;> omega
          · rcases ihp with h | h
            · rw [h]
              right
              exact_mod_cast hguard.2.1
            · exact Or.inr h
        · next hguard =>
          obtain ⟨ihc, ihb, ihp⟩ := ih
            (rest.dropWhile (fun e2 => di = e2.1 ∨ ii = e2.2))
            prevD prevI
          exact ⟨by simpa using ihc, fun r hr => ihb r (by simpa using hr),
            by simpa using ihp⟩
      · simp

end Critic

namespace Critic

/-- The record-emission loop produces records with strictly increasing
printed deleted indices, all above the previous index, provided the
accepted matches are sorted strictly by deleted index and the previous
index is below the first accepted one. -/
theorem emitLoop_spec (D I : List String) (oA oB : Nat) :
    ∀ (accepted : List MatchData) (eqs : List (Nat × Nat))
      (prevD prevI : Int),
      accepted.Chain' (fun a b => a.dIdx < b.dIdx) →
      (∀ m ∈ accepted.head?, prevD < (m.dIdx : Int)) →
      List.Chain' (fun a b => a.1 < b.1)
        (emitLoop D I oA oB accepted eqs prevD prevI) ∧
      (∀ r ∈ emitLoop D I oA oB accepted eqs prevD prevI,
        prevD + oA < (r.1 : Int)) := by
  intro accepted
  induction accepted with
  | nil =>
    intro eqs prevD prevI _ _
    simp only [emitLoop]
    obtain ⟨hc, hb, _⟩ := drainEquals_spec D I oA oB D.length I.length
      eqs.length eqs prevD prevI
    exact ⟨hc, fun r hr => (hb r hr).1⟩
  | cons m rest ih =>
    intro eqs prevD prevI hchain hhead
    have hheadm : prevD < (m.dIdx : Int) := hhead m rfl
    obtain ⟨hrel, hchainrest⟩ := List.chain'_cons'.1 hchain
    simp only [emitLoop]
    obtain ⟨hc, hb, hp⟩ := drainEquals_spec D I oA oB m.dIdx m.iIdx
      eqs.length eqs prevD prevI
    obtain ⟨ihc, ihb⟩ := ih
      (drainEquals D I oA oB m.dIdx m.iIdx eqs.length eqs prevD prevI).2.2.2
      (m.dIdx : Int) (m.iIdx : Int) hchainrest
      (fun m2 hm2 => by exact_mod_cast hrel m2 hm2)
    constructor
    · apply List.Chain'.append hc
      · apply List.chain'_cons'.2
        refine ⟨?_, ihc⟩
        intro y hy
        have := ihb y (List.mem_of_mem_head? hy)
        omega
      · intro x hx y hy
        have hxm := List.mem_of_mem_getLast? hx
        have := (hb x hxm).2
        have hym : y = (m.dIdx + oA, matchRecord D I oA oB m) :=
          (by simpa using hy : _ = y).symm
        rw [hym]
        omega
    · intro r hr
      rcases List.mem_append.1 hr with h | h
      · exact (hb r h).1
      · rcases List.mem_cons.1 h with h2 | h2
        · rw [h2]
          simp
          omega
        · have := ihb r h2
          omega

end Critic

namespace Critic

theorem tailEqualRecords_head (D I : List String) (oA oB : Nat) :
    ∀ (fuel index : Nat) (r : Nat × String),
      (tailEqualRecords D I oA oB fuel index).head? = some r →
      r.1 = D.length - index + oA ∧ index ≤ D.length := by
  intro fuel index r h
  cases fuel with
  | zero => simp [tailEqualRecords] at h
  | succ fuel =>
    simp only [tailEqualRecords] at h
    split at h
    · next hg =>
      rw [List.head?_cons, Option.some.injEq] at h
      rw [← h]
      exact ⟨rfl, hg.1⟩
    · simp at h

theorem tailEqualRecords_chain (D I : List String) (oA oB : Nat) :
    ∀ (fuel index : Nat),
      List.Chain' (fun a b => b.1 < a.1)
        (tailEqualRecords D I oA oB fuel index) := by
  intro fuel
  induction fuel with
  | zero => intro index; simp [tailEqualRecords]
  | succ fuel ih =>
    intro index
    simp only [tailEqualRecords]
    split
    · next hg =>
      apply List.chain'_cons'.2
      refine ⟨?_, ih (index + 1)⟩
      intro y hy
      obtain ⟨hy1, hy2⟩ := tailEqualRecords_head D I oA oB fuel (index + 1)
        y hy
      simp only
      omega
    · simp

end Critic

namespace Critic

/-- C7: the greedily accepted line matches of analyzeChunk1 are pairwise
non-crossing -- no two accepted pairs share a deleted or an inserted index,
and for any two accepted pairs (d, i), (d0, i0) we have d < d0 iff i < i0 --
and the records of the returned string appear in strictly ascending order of
their printed deleted-line index, the returned string being their
";"-intercalation. -/
theorem c7_non_crossing_ascending (D I : List String) (offA offB : Nat) :
    List.Pairwise (fun m m' => m.dIdx ≠ m'.dIdx ∧ m.iIdx ≠ m'.iIdx ∧
      ((m.dIdx < m'.dIdx) ↔ (m.iIdx < m'.iIdx)))
      (analyzeChunk1Accepted D I) ∧
    List.Chain' (fun r r' => r.1 < r'.1)
      (analyzeChunk1Records D I offA offB) ∧
    analyzeChunk1 D I offA offB = String.intercalate ";"
      ((analyzeChunk1Records D I offA offB).map (fun r => r.2)) := by
  refine ⟨?_, ?_, rfl⟩
  · unfold analyzeChunk1Accepted
    exact greedyAccept_pairwise _ _ _
  · unfold analyzeChunk1Records
    split
    · simp
    · split
      · apply (emitLoop_spec D I offA offB _ _ (-1) (-1) ?_ ?_).1
        · apply sortAcceptedAsc_chain
          exact (greedyAccept_pairwise _ _ _).imp (fun h => h.1)
        · intro m _
          omega
      · split
        · rw [List.chain'_reverse]
          exact tailEqualRecords_chain D I offA offB
            (D.length + 1) 1
        · simp

end Critic
